import Mathlib

/-!
Shallow embedding of the snow_edit editor core (src/editor/view/line.rs,
src/editor/view/buffer.rs, src/editor/view.rs) and proofs about the claims
of the specification.

Text is modelled as `List Char`.  The behaviour of the external crates
`unicode-segmentation` and `unicode-width` is modelled by concrete,
executable character classification tables covering the character classes
the program distinguishes (Extend/combining marks, control characters,
East-Asian wide characters, whitespace); grapheme-cluster segmentation is
the pair-based fragment of UAX #29 (rules GB4/GB5 for Control, GB9 for
Extend, GB999 otherwise), which is exact for these classes.
-/

set_option autoImplicit false

namespace SnowEdit

/-! ### Character classification (model of the unicode crates) -/

/-- Model of Rust `char::is_control`: the Unicode Cc category. -/
def isControlChar (c : Char) : Bool :=
  c.toNat < 0x20 || (0x7F ≤ c.toNat && c.toNat ≤ 0x9F)

/-- Model of the grapheme-cluster Extend class (combining marks, variation
selectors, zero-width joiners) as used by `unicode-segmentation`. -/
def isExtendChar (c : Char) : Bool :=
  (0x300 ≤ c.toNat && c.toNat ≤ 0x36F) ||
  (0x20D0 ≤ c.toNat && c.toNat ≤ 0x20FF) ||
  (0xFE00 ≤ c.toNat && c.toNat ≤ 0xFE0F) ||
  (0x200C ≤ c.toNat && c.toNat ≤ 0x200D)

/-- Model of the East-Asian-wide classes used by `unicode-width`. -/
def isWideChar (c : Char) : Bool :=
  (0x1100 ≤ c.toNat && c.toNat ≤ 0x115F) ||
  (0x2E80 ≤ c.toNat && c.toNat ≤ 0xA4CF) ||
  (0xAC00 ≤ c.toNat && c.toNat ≤ 0xD7A3) ||
  (0xF900 ≤ c.toNat && c.toNat ≤ 0xFAFF) ||
  (0xFF00 ≤ c.toNat && c.toNat ≤ 0xFF60) ||
  (0xFFE0 ≤ c.toNat && c.toNat ≤ 0xFFE6)

/-- Model of the Unicode White_Space property (Rust `char::is_whitespace`,
used by `str::trim`). -/
def isWhitespaceChar (c : Char) : Bool :=
  c.toNat = 0x20 || (0x9 ≤ c.toNat && c.toNat ≤ 0xD) ||
  c.toNat = 0x85 || c.toNat = 0xA0 || c.toNat = 0x1680 ||
  (0x2000 ≤ c.toNat && c.toNat ≤ 0x200A) ||
  c.toNat = 0x2028 || c.toNat = 0x2029 || c.toNat = 0x202F ||
  c.toNat = 0x205F || c.toNat = 0x3000

/-- Model of `unicode_width` for a single character: 0 for combining marks,
control characters and the zero-width space, 2 for East-Asian wide
characters, otherwise 1. -/
def charUWidth (c : Char) : Nat :=
  if isExtendChar c || isControlChar c || c.toNat = 0x200B then 0
  else if isWideChar c then 2
  else 1

/-- Model of `UnicodeWidthStr::width`: sum of the character widths. -/
def strUWidth (s : List Char) : Nat :=
  (s.map charUWidth).sum

theorem not_control_of_extend {c : Char} (h : isExtendChar c = true) :
    isControlChar c = false := by
  have h' : (0x300 ≤ c.toNat ∧ c.toNat ≤ 0x36F) ∨ (0x20D0 ≤ c.toNat ∧ c.toNat ≤ 0x20FF) ∨
      (0xFE00 ≤ c.toNat ∧ c.toNat ≤ 0xFE0F) ∨ (0x200C ≤ c.toNat ∧ c.toNat ≤ 0x200D) := by
    simpa [isExtendChar, Bool.or_eq_true, Bool.and_eq_true, decide_eq_true_eq, or_assoc] using h
  simp only [isControlChar, Bool.or_eq_false_iff, Bool.and_eq_false_iff, decide_eq_false_iff_not]
  omega

/-! ### Grapheme segmentation (model of `graphemes(true)`) -/

/-- UAX #29 boundary decision between two adjacent characters, restricted to
the classes above: always break after a Control character (GB4), otherwise
never break before an Extend character (GB9), and break everywhere else
(GB999). -/
def graphemeBreakBetween (a b : Char) : Bool :=
  isControlChar a || !isExtendChar b

/-- Segmentation of a character list into extended grapheme clusters,
the model of `UnicodeSegmentation::graphemes(true)`.  A new character is
merged into the following cluster exactly when there is no boundary between
it and that cluster's first character. -/
def graphemes : List Char → List (List Char)
  | [] => []
  | c :: cs =>
    match graphemes cs with
    | [] => [[c]]
    | g :: gs => if graphemeBreakBetween c (g.headD ' ') then [c] :: g :: gs else (c :: g) :: gs

theorem graphemes_nil : graphemes [] = [] := rfl

theorem graphemes_cons (c : Char) (cs : List Char) :
    graphemes (c :: cs) =
      match graphemes cs with
      | [] => [[c]]
      | g :: gs =>
        if graphemeBreakBetween c (g.headD ' ') then [c] :: g :: gs else (c :: g) :: gs := rfl

theorem graphemes_eq_nil_iff (s : List Char) : graphemes s = [] ↔ s = [] := by
  cases s with
  | nil => simp [graphemes]
  | cons c cs =>
    constructor
    · intro h
      cases hg : graphemes cs with
      | nil => simp [graphemes_cons, hg] at h
      | cons g gs => simp only [graphemes_cons, hg] at h; split at h <;> simp_all
    · intro h; exact absurd h (List.cons_ne_nil c cs)

theorem graphemes_mem_ne_nil : ∀ (s : List Char), ∀ g ∈ graphemes s, g ≠ [] := by
  intro s
  induction s with
  | nil => intro g hg; simp [graphemes] at hg
  | cons c cs ih =>
    intro g hg
    cases hgs : graphemes cs with
    | nil =>
      simp only [graphemes_cons, hgs] at hg
      simp at hg; simp [hg]
    | cons g0 gs0 =>
      simp only [graphemes_cons, hgs] at hg
      split at hg
      · rcases List.mem_cons.mp hg with h | h
        · simp [h]
        · exact ih g (by rw [hgs]; exact h)
      · rcases List.mem_cons.mp hg with h | h
        · simp [h]
        · exact ih g (by rw [hgs]; exact List.mem_cons_of_mem _ h)

theorem graphemes_join : ∀ s : List Char, (graphemes s).flatten = s := by
  intro s
  induction s with
  | nil => rfl
  | cons c cs ih =>
    cases hg : graphemes cs with
    | nil =>
      have hcs : cs = [] := (graphemes_eq_nil_iff cs).mp hg
      subst hcs
      simp [graphemes_cons, graphemes_nil]
    | cons g gs =>
      rw [hg] at ih
      simp only [graphemes_cons, hg]
      split
      · simpa using ih
      · simpa using ih

/-! ### Structure of segmented text: cluster chains -/

/-- Shape of a single extended grapheme cluster under the model: a first
character followed by Extend characters, where a Control character can only
stand alone. -/
def clusterShape (g : List Char) : Prop :=
  match g with
  | [] => False
  | c :: rest => (∀ x ∈ rest, isExtendChar x = true) ∧ (rest = [] ∨ isControlChar c = false)

/-- There is a grapheme boundary between the end of `g` and the start of `h`. -/
def breakRel (g h : List Char) : Prop :=
  graphemeBreakBetween (g.getLastD ' ') (h.headD ' ') = true

/-- A list of clusters as produced by segmentation: every cluster is shaped,
and adjacent clusters are separated by a boundary. -/
def chainOK (gs : List (List Char)) : Prop :=
  (∀ g ∈ gs, clusterShape g) ∧ List.Chain' breakRel gs

theorem clusterShape_ne_nil {g : List Char} (h : clusterShape g) : g ≠ [] := by
  cases g with
  | nil => exact absurd h (by simp [clusterShape])
  | cons c r => exact List.cons_ne_nil c r

theorem getLastD_irrel : ∀ (l : List Char) (a b : Char), l ≠ [] → l.getLastD a = l.getLastD b := by
  intro l
  induction l with
  | nil => intro a b h; exact absurd rfl h
  | cons x l' ih =>
    intro a b _
    cases l' with
    | nil => rfl
    | cons y l'' => simp only [List.getLastD_cons]

theorem headD_append_of_ne_nil {l r : List Char} (d : Char) (h : l ≠ []) :
    (l ++ r).headD d = l.headD d := by
  cases l with
  | nil => exact absurd rfl h
  | cons x xs => rfl

/-- The first cluster of a segmentation starts with the first character. -/
theorem graphemes_first (c : Char) (cs : List Char) :
    ∃ t gs, graphemes (c :: cs) = (c :: t) :: gs := by
  cases hg : graphemes cs with
  | nil => exact ⟨[], [], by simp [graphemes_cons, hg]⟩
  | cons g gs =>
    by_cases hb : graphemeBreakBetween c (g.head?.getD ' ') = true
    · exact ⟨[], g :: gs, by simp [graphemes_cons, hg, hb]⟩
    · exact ⟨g, gs, by simp [graphemes_cons, hg, hb]⟩

/-- Segmentation output is always a well-formed cluster chain. -/
theorem chainOK_graphemes : ∀ s : List Char, chainOK (graphemes s) := by
  intro s
  induction s with
  | nil => exact ⟨by simp [graphemes], List.chain'_nil⟩
  | cons c cs ih =>
    obtain ⟨ihShape, ihChain⟩ := ih
    cases hg : graphemes cs with
    | nil =>
      refine ⟨?_, ?_⟩
      · intro g hgmem
        simp [graphemes_cons, hg] at hgmem
        simp [hgmem, clusterShape]
      · simp [graphemes_cons, hg]
    | cons g gs =>
      obtain ⟨d, cs', rfl⟩ : ∃ d cs', cs = d :: cs' := by
        cases cs with
        | nil => rw [graphemes_nil] at hg; exact absurd hg (by simp)
        | cons d cs' => exact ⟨d, cs', rfl⟩
      obtain ⟨t, gs', hfirst⟩ := graphemes_first d cs'
      rw [hg] at hfirst
      injection hfirst with h1 h2
      subst h1; subst h2
      rw [hg] at ihShape ihChain
      by_cases hb : graphemeBreakBetween c d = true
      · have hstep : graphemes (c :: d :: cs') = [c] :: (d :: t) :: gs := by
          simp [graphemes_cons, hg, hb]
        rw [hstep]
        refine ⟨?_, ?_⟩
        · intro g hmem
          rcases List.mem_cons.mp hmem with h | h
          · subst h; exact ⟨by simp, Or.inl rfl⟩
          · exact ihShape g h
        · refine List.chain'_cons.mpr ⟨?_, ihChain⟩
          simpa [breakRel] using hb
      · have hstep : graphemes (c :: d :: cs') = (c :: d :: t) :: gs := by
          simp [graphemes_cons, hg, hb]
        rw [hstep]
        have hb' : isControlChar c = false ∧ isExtendChar d = true := by
          have := eq_false_of_ne_true hb
          simpa [graphemeBreakBetween, Bool.or_eq_false_iff] using this
        refine ⟨?_, ?_⟩
        · intro g hmem
          rcases List.mem_cons.mp hmem with h | h
          · subst h
            obtain ⟨hext, _⟩ := ihShape (d :: t) (List.mem_cons_self _ _)
            refine ⟨?_, Or.inr hb'.1⟩
            intro x hx
            rcases List.mem_cons.mp hx with h' | h'
            · subst h'; exact hb'.2
            · exact hext x h'
          · exact ihShape g (List.mem_cons_of_mem _ h)
        · obtain ⟨hhead, hchain⟩ := List.chain'_cons'.mp ihChain
          refine List.chain'_cons'.mpr ⟨?_, hchain⟩
          intro y hy
          have := hhead y hy
          simpa [breakRel, List.getLastD_cons,
            getLastD_irrel (d :: t) c ' ' (List.cons_ne_nil d t)] using this

/-- Prepending one shaped cluster to text that starts at a boundary adds
exactly that cluster to the segmentation. -/
theorem graphemes_cluster_prepend :
    ∀ (r : List Char) (c : Char) (rest : List Char),
      (∀ x ∈ r, isExtendChar x = true) → (r = [] ∨ isControlChar c = false) →
      (rest = [] ∨ graphemeBreakBetween ((c :: r).getLastD ' ') (rest.headD ' ') = true) →
      graphemes ((c :: r) ++ rest) = (c :: r) :: graphemes rest := by
  intro r
  induction r with
  | nil =>
    intro c rest _ _ hbreak
    cases rest with
    | nil => simp [graphemes_cons, graphemes_nil]
    | cons e es =>
      obtain ⟨t, gs, hfirst⟩ := graphemes_first e es
      have hb : graphemeBreakBetween c e = true := by
        rcases hbreak with h | h
        · exact absurd h (by simp)
        · simpa [List.getLastD] using h
      simp [graphemes_cons, hfirst, hb]
  | cons e r' ih =>
    intro c rest hext hhead hbreak
    have hext' : ∀ x ∈ r', isExtendChar x = true :=
      fun x hx => hext x (List.mem_cons_of_mem _ hx)
    have he : isExtendChar e = true := hext e (List.mem_cons_self _ _)
    have hc : isControlChar c = false := by
      rcases hhead with h | h
      · exact absurd h (by simp)
      · exact h
    have ihres : graphemes ((e :: r') ++ rest) = (e :: r') :: graphemes rest := by
      refine ih e rest hext' (Or.inr (not_control_of_extend he)) ?_
      rcases hbreak with h | h
      · exact Or.inl h
      · right
        have : (c :: e :: r').getLastD ' ' = (e :: r').getLastD ' ' := by
          rw [List.getLastD_cons]
          exact getLastD_irrel (e :: r') c ' ' (List.cons_ne_nil e r')
        rw [← this]
        exact h
    have hb : graphemeBreakBetween c e = false := by
      simp [graphemeBreakBetween, hc, he]
    have hassoc : (c :: e :: r') ++ rest = c :: ((e :: r') ++ rest) := rfl
    rw [hassoc, graphemes_cons, ihres]
    simp [hb]

/-- A well-formed cluster chain re-segments to itself. -/
theorem graphemes_flatten_of_chainOK :
    ∀ gs : List (List Char), chainOK gs → graphemes gs.flatten = gs := by
  intro gs
  induction gs with
  | nil => intro _; simp [graphemes_nil]
  | cons g gs' ih =>
    intro hOK
    obtain ⟨hshape, hchain⟩ := hOK
    have hg := hshape g (List.mem_cons_self _ _)
    obtain ⟨c, r, rfl⟩ : ∃ c r, g = c :: r := by
      cases g with
      | nil => exact absurd hg (by simp [clusterShape])
      | cons c r => exact ⟨c, r, rfl⟩
    obtain ⟨hext, hhd⟩ := hg
    have hshape' : ∀ x ∈ gs', clusterShape x :=
      fun x hx => hshape x (List.mem_cons_of_mem _ hx)
    obtain ⟨hhead, hchain'⟩ := List.chain'_cons'.mp hchain
    have ihres := ih ⟨hshape', hchain'⟩
    have hbreak : gs'.flatten = [] ∨
        graphemeBreakBetween ((c :: r).getLastD ' ') (gs'.flatten.headD ' ') = true := by
      cases hgs : gs' with
      | nil => left; simp
      | cons h t =>
        right
        have hsh := hshape' h (by rw [hgs]; exact List.mem_cons_self _ _)
        have hbr : breakRel (c :: r) h := hhead h (by rw [hgs]; rfl)
        have hne : h ≠ [] := clusterShape_ne_nil hsh
        have hhd' : ((h :: t).flatten).headD ' ' = h.headD ' ' := by
          simp only [List.flatten_cons]
          exact headD_append_of_ne_nil ' ' hne
        rw [hhd']
        exact hbr
    have hpre := graphemes_cluster_prepend r c gs'.flatten hext hhd hbreak
    calc graphemes ((c :: r) :: gs').flatten
        = graphemes ((c :: r) ++ gs'.flatten) := by simp
      _ = (c :: r) :: graphemes gs'.flatten := hpre
      _ = (c :: r) :: gs' := by rw [ihres]

/-! ### Line (src/editor/view/line.rs) -/

/-- Rendered width of one grapheme: Half (1 column) or Full (2 columns). -/
inductive GraphemeWidth where
  | Half : GraphemeWidth
  | Full : GraphemeWidth
deriving DecidableEq

/-- `GraphemeWidth::saturating_add`; `usize` saturating addition never
saturates for representable documents, so it is plain addition on `Nat`. -/
def GraphemeWidth.saturating_add : GraphemeWidth → Nat → Nat
  | .Full, other => other + 2
  | .Half, other => other + 1

/-- Numeric value of a `GraphemeWidth`, the match used by `width_until`. -/
def GraphemeWidth.val : GraphemeWidth → Nat
  | .Half => 1
  | .Full => 2

/-- `TextFragment`: one grapheme cluster with rendering metadata. -/
structure TextFragment where
  grapheme : List Char
  rendered_width : GraphemeWidth
  replacement : Option Char
deriving DecidableEq

/-- `Line::replace_character`: replacement glyph for invisible characters. -/
def replace_character (for_str : List Char) : Option Char :=
  let width := strUWidth for_str
  if for_str = [' '] then none
  else if for_str = ['\t'] then some ' '
  else if 0 < width ∧ for_str.all isWhitespaceChar = true then some '␣'
  else if width = 0 then
    match for_str with
    | [ch] => if isControlChar ch then some '▯' else some '·'
    | _ => some '·'
  else none

/-- The per-cluster body of the map inside `Line::str_to_fragments`. -/
def buildFragment (grapheme : List Char) : TextFragment :=
  match replace_character grapheme with
  | some replacement =>
    { grapheme := grapheme, rendered_width := .Half, replacement := some replacement }
  | none =>
    let unicode_width := strUWidth grapheme
    { grapheme := grapheme,
      rendered_width := if unicode_width = 0 ∨ unicode_width = 1 then .Half else .Full,
      replacement := none }

/-- `Line::str_to_fragments`. -/
def str_to_fragments (line_str : List Char) : List TextFragment :=
  (graphemes line_str).map buildFragment

/-- `Line`: an ordered sequence of text fragments. -/
structure Line where
  fragments : List TextFragment
deriving DecidableEq

/-- `Line::from`. -/
def Line.fromStr (line_str : List Char) : Line :=
  ⟨str_to_fragments line_str⟩

/-- The `Display` implementation: concatenation of the fragments' source
text (the canonical text form that is saved to disk). -/
def Line.toText (l : Line) : List Char :=
  (l.fragments.map TextFragment.grapheme).flatten

/-- `Line::grapheme_count`. -/
def Line.grapheme_count (l : Line) : Nat :=
  l.fragments.length

/-- `Line::width_until`. -/
def Line.width_until (l : Line) (grapheme_index : Nat) : Nat :=
  ((l.fragments.take grapheme_index).map fun f => f.rendered_width.val).sum

/-- The string built by the loop of `Line::insert_char`: push the new
character right before the fragment whose index equals `at_`. -/
def insertLoop (character : Char) (at_ : Nat) : Nat → List TextFragment → List Char
  | _, [] => []
  | i, f :: fs =>
    (if i = at_ then [character] else []) ++ f.grapheme ++ insertLoop character at_ (i + 1) fs

/-- `Line::insert_char`: rebuild the text with the character inserted
(appending when `at_` is at or past the end) and re-segment. -/
def Line.insert_char (l : Line) (character : Char) (at_ : Nat) : Line :=
  ⟨str_to_fragments (insertLoop character at_ 0 l.fragments ++
    (if l.fragments.length ≤ at_ then [character] else []))⟩

/-- The string built by the loop of `Line::delete`: keep every fragment
except the one at index `at_`. -/
def deleteLoop (at_ : Nat) : Nat → List TextFragment → List Char
  | _, [] => []
  | i, f :: fs => (if i = at_ then [] else f.grapheme) ++ deleteLoop at_ (i + 1) fs

/-- `Line::delete`. -/
def Line.delete (l : Line) (at_ : Nat) : Line :=
  ⟨str_to_fragments (deleteLoop at_ 0 l.fragments)⟩

/-- `Line::append`: concatenate the canonical texts and re-segment. -/
def Line.append (l other : Line) : Line :=
  ⟨str_to_fragments (l.toText ++ other.toText)⟩

/-- `Line::split`: the first component is `self` after the call
(fragments `[0, at_)`), the second is the returned remainder
(fragments `[at_, end)`); out-of-range `at_` leaves `self` unchanged and
returns an empty line. -/
def Line.split (l : Line) (at_ : Nat) : Line × Line :=
  if l.fragments.length < at_ then (l, ⟨[]⟩)
  else (⟨l.fragments.take at_⟩, ⟨l.fragments.drop at_⟩)

/-- The ellipsis placeholder pushed for partially visible fragments. -/
def ellipsisChar : Char := '⋯'

/-- What a fully visible fragment renders as: its replacement glyph if one
is set, otherwise its grapheme text. -/
def visPiece (f : TextFragment) : List Char :=
  match f.replacement with
  | some c => [c]
  | none => f.grapheme

/-- The fragment loop of `Line::get_visible_graphemes`. -/
def get_visible_loop (rstart rend : Nat) : Nat → List TextFragment → List Char
  | _, [] => []
  | current_pos, f :: fs =>
    let fragment_end := f.rendered_width.saturating_add current_pos
    if rend ≤ current_pos then []
    else
      (if rstart < fragment_end then
        (if rend < fragment_end ∨ current_pos < rstart then [ellipsisChar] else visPiece f)
      else []) ++ get_visible_loop rstart rend fragment_end fs

/-- `Line::get_visible_graphemes` over the display-column window
`[rstart, rend)`. -/
def Line.get_visible_graphemes (l : Line) (rstart rend : Nat) : List Char :=
  if rend ≤ rstart then [] else get_visible_loop rstart rend 0 l.fragments

theorem buildFragment_grapheme (g : List Char) : (buildFragment g).grapheme = g := by
  unfold buildFragment
  cases replace_character g <;> rfl

theorem grapheme_str_to_fragments (s : List Char) :
    (str_to_fragments s).map TextFragment.grapheme = graphemes s := by
  rw [str_to_fragments, List.map_map]
  calc ((graphemes s).map (TextFragment.grapheme ∘ buildFragment))
      = (graphemes s).map id :=
        List.map_congr_left fun g _ => buildFragment_grapheme g
    _ = graphemes s := List.map_id _

theorem toText_fromStr (s : List Char) : (Line.fromStr s).toText = s := by
  rw [Line.fromStr, Line.toText]
  show ((str_to_fragments s).map TextFragment.grapheme).flatten = s
  rw [grapheme_str_to_fragments, graphemes_join]

/-! ### Buffer (src/editor/view/buffer.rs) -/

/-- `FileInfo` (src/editor/fileinfo.rs): an optional file path. -/
structure FileInfo where
  path : Option (List Char)
deriving DecidableEq

/-- `Location` (src/editor/view.rs): logical cursor position. -/
structure Location where
  grapheme_index : Nat
  line_index : Nat
deriving DecidableEq

/-- `Buffer`. -/
structure Buffer where
  lines : List Line
  file_info : FileInfo
  dirty : Bool
deriving DecidableEq

/-- `Buffer::height`. -/
def Buffer.height (b : Buffer) : Nat := b.lines.length

/-- `Buffer::is_empty`. -/
def Buffer.is_empty (b : Buffer) : Bool := b.lines.isEmpty

/-- Model of Rust `str::split_inclusive('\n')`: pieces end right after each
newline; a last piece without a newline is kept; the empty string yields no
pieces. -/
def splitInclusiveNl : List Char → List (List Char)
  | [] => []
  | c :: cs =>
    if c = '\n' then [c] :: splitInclusiveNl cs
    else
      match splitInclusiveNl cs with
      | [] => [[c]]
      | p :: ps => (c :: p) :: ps

/-- Model of the per-line map of Rust `str::lines`: strip one trailing
newline, and if one was stripped also strip one trailing carriage return;
a piece with no trailing newline is returned unchanged. -/
def rustLineStrip (piece : List Char) : List Char :=
  if piece.getLast? = some '\n' then
    if piece.dropLast.getLast? = some '\r' then piece.dropLast.dropLast else piece.dropLast
  else piece

/-- Model of Rust `str::lines`. -/
def linesOf (s : List Char) : List (List Char) :=
  (splitInclusiveNl s).map rustLineStrip

/-- `Buffer::load` on the success path of `read_to_string`: the file's
contents are passed as a parameter. -/
def Buffer.load (file_name : List Char) (contents : List Char) : Buffer :=
  { lines := (linesOf contents).map Line.fromStr,
    file_info := { path := some file_name },
    dirty := false }

/-- `Buffer::insert_char`. -/
def Buffer.insert_char (b : Buffer) (character : Char) (at_ : Location) : Buffer :=
  if b.height < at_.line_index then b
  else if at_.line_index = b.height then
    { b with
      lines := b.lines ++ [Line.fromStr [character]]
      dirty := true }
  else
    match b.lines.get? at_.line_index with
    | some line =>
      { b with
        lines := b.lines.set at_.line_index (line.insert_char character at_.grapheme_index)
        dirty := true }
    | none => b

/-- `Buffer::delete`. -/
def Buffer.delete (b : Buffer) (at_ : Location) : Buffer :=
  match b.lines.get? at_.line_index with
  | none => b
  | some line =>
    if line.grapheme_count ≤ at_.grapheme_index ∧ at_.line_index + 1 < b.height then
      let next_line := (b.lines.get? (at_.line_index + 1)).getD ⟨[]⟩
      { b with
        lines := (b.lines.eraseIdx (at_.line_index + 1)).set at_.line_index
          (line.append next_line)
        dirty := true }
    else if at_.grapheme_index < line.grapheme_count then
      { b with
        lines := b.lines.set at_.line_index (line.delete at_.grapheme_index)
        dirty := true }
    else b

/-- The output written by the loop of `Buffer::save`: for each line,
`writeln!` emits the line's canonical text followed by one newline. -/
def writeAllLines : List Line → List Char
  | [] => []
  | line :: rest => (line.toText ++ ['\n']) ++ writeAllLines rest

/-- `Buffer::save`, with the file system modelled as always accepting the
write: the result carries the buffer after the call and the contents
written to the file (`none` when no file was written).  When no path is
set the function returns `Ok(())` without writing and without touching
`dirty`. -/
def Buffer.save (b : Buffer) : Except (List Char) (Buffer × Option (List Char)) :=
  match b.file_info.path with
  | some _ => .ok ({ b with dirty := false }, some (writeAllLines b.lines))
  | none => .ok (b, none)

/-! ### View (src/editor/view.rs) -/

/-- `Size` (src/editor/terminal.rs). -/
structure Size where
  height : Nat
  width : Nat
deriving DecidableEq

/-- `Position` (src/editor/terminal.rs). -/
structure Position where
  col : Nat
  row : Nat
deriving DecidableEq

/-- `View`: buffer, redraw flag, viewport size, cursor location and scroll
offset. -/
structure View where
  buffer : Buffer
  needs_redraw : Bool
  size : Size
  text_location : Location
  scroll_offset : Position
deriving DecidableEq

/-- `Direction` (src/editor/editorcommand.rs). -/
inductive Direction where
  | PageUp | PageDown | Home | End | Up | Left | Right | Down
deriving DecidableEq

/-- `View::snap_to_valid_grapheme`. -/
def View.snap_to_valid_grapheme (v : View) : View :=
  let gi :=
    match v.buffer.lines.get? v.text_location.line_index with
    | some line => min line.grapheme_count v.text_location.grapheme_index
    | none => 0
  { v with text_location := { v.text_location with grapheme_index := gi } }

/-- `View::snap_to_valid_line`. -/
def View.snap_to_valid_line (v : View) : View :=
  { v with text_location := { v.text_location with
      line_index := min v.text_location.line_index v.buffer.height } }

/-- `View::move_up`. -/
def View.move_up (v : View) (step : Nat) : View :=
  ({ v with text_location := { v.text_location with
      line_index := v.text_location.line_index - step } }).snap_to_valid_grapheme

/-- `View::move_down`. -/
def View.move_down (v : View) (step : Nat) : View :=
  (({ v with text_location := { v.text_location with
      line_index := v.text_location.line_index + step } }).snap_to_valid_grapheme
    ).snap_to_valid_line

/-- `View::move_to_start_of_line`. -/
def View.move_to_start_of_line (v : View) : View :=
  { v with text_location := { v.text_location with grapheme_index := 0 } }

/-- `View::move_to_end_of_line`. -/
def View.move_to_end_of_line (v : View) : View :=
  let gi :=
    match v.buffer.lines.get? v.text_location.line_index with
    | some line => line.grapheme_count
    | none => 0
  { v with text_location := { v.text_location with grapheme_index := gi } }

/-- `View::move_right`. -/
def View.move_right (v : View) : View :=
  let line_width :=
    match v.buffer.lines.get? v.text_location.line_index with
    | some line => line.grapheme_count
    | none => 0
  if v.text_location.grapheme_index < line_width then
    { v with text_location := { v.text_location with
        grapheme_index := v.text_location.grapheme_index + 1 } }
  else
    (v.move_to_start_of_line).move_down 1

/-- `View::move_left`. -/
def View.move_left (v : View) : View :=
  if 0 < v.text_location.grapheme_index then
    { v with text_location := { v.text_location with
        grapheme_index := v.text_location.grapheme_index - 1 } }
  else
    (v.move_up 1).move_to_end_of_line

/-- `View::text_location_to_position`. -/
def View.text_location_to_position (v : View) : Position :=
  let c :=
    match v.buffer.lines.get? v.text_location.line_index with
    | some line => line.width_until v.text_location.grapheme_index
    | none => 0
  { row := v.text_location.line_index, col := c }

/-- `View::scroll_vertically`. -/
def View.scroll_vertically (v : View) (to_ : Nat) : View :=
  if to_ < v.scroll_offset.row then
    { v with
      scroll_offset := { v.scroll_offset with row := to_ }
      needs_redraw := true }
  else if v.scroll_offset.row + v.size.height ≤ to_ then
    { v with
      scroll_offset := { v.scroll_offset with row := to_ - v.size.height + 1 }
      needs_redraw := true }
  else v

/-- `View::scroll_horizontally`. -/
def View.scroll_horizontally (v : View) (to_ : Nat) : View :=
  if to_ < v.scroll_offset.col then
    { v with
      scroll_offset := { v.scroll_offset with col := to_ }
      needs_redraw := true }
  else if v.scroll_offset.col + v.size.width ≤ to_ then
    { v with
      scroll_offset := { v.scroll_offset with col := to_ - v.size.width + 1 }
      needs_redraw := true }
  else v

/-- `View::scroll_text_location_into_view`. -/
def View.scroll_text_location_into_view (v : View) : View :=
  let p := v.text_location_to_position
  (v.scroll_vertically p.row).scroll_horizontally p.col

/-- `View::move_text_location`. -/
def View.move_text_location (v : View) (direction : Direction) : View :=
  (match direction with
   | .Up => v.move_up 1
   | .Down => v.move_down 1
   | .Left => v.move_left
   | .Right => v.move_right
   | .PageUp => v.move_up (v.size.height - 1)
   | .PageDown => v.move_down (v.size.height - 1)
   | .Home => v.move_to_start_of_line
   | .End => v.move_to_end_of_line).scroll_text_location_into_view

/-- `View::resize`. -/
def View.resize (v : View) (to_ : Size) : View :=
  let v2 := ({ v with size := to_ }).scroll_text_location_into_view
  { v2 with needs_redraw := true }

/-- The Move and Resize commands of `EditorCommand`. -/
inductive MoveResizeCommand where
  | Move : Direction → MoveResizeCommand
  | Resize : Size → MoveResizeCommand
deriving DecidableEq

/-- Dispatch of `View::handle_command` restricted to Move/Resize. -/
def View.handleMoveResize (v : View) : MoveResizeCommand → View
  | .Move d => v.move_text_location d
  | .Resize s => v.resize s

/-- Processing a whole command sequence. -/
def View.run (v : View) (cmds : List MoveResizeCommand) : View :=
  cmds.foldl View.handleMoveResize v

/-- The cursor's display position lies inside the viewport window on both
axes. -/
def cursorInView (v : View) : Prop :=
  v.scroll_offset.row ≤ v.text_location_to_position.row ∧
  v.text_location_to_position.row < v.scroll_offset.row + v.size.height ∧
  v.scroll_offset.col ≤ v.text_location_to_position.col ∧
  v.text_location_to_position.col < v.scroll_offset.col + v.size.width

instance (v : View) : Decidable (cursorInView v) := by
  unfold cursorInView
  infer_instance

/-! ### Shared helper lemmas -/

theorem toText_mk_str_to_fragments (s : List Char) :
    (Line.mk (str_to_fragments s)).toText = s :=
  toText_fromStr s

theorem writeAllLines_eq (lines : List Line) :
    writeAllLines lines = (lines.map fun line => line.toText ++ ['\n']).flatten := by
  induction lines with
  | nil => rfl
  | cons l rest ih => simp [writeAllLines, ih]

/-! ### Claim C6: width_until is monotone and totals the fragment widths -/

/-- C6: for every Line and every index k below the grapheme count,
`width_until k ≤ width_until (k+1)`, and `width_until grapheme_count`
equals the sum of all fragment widths. -/
theorem C6_width_until_monotone_total (l : Line) :
    (∀ k, k < l.grapheme_count → l.width_until k ≤ l.width_until (k + 1)) ∧
    l.width_until l.grapheme_count =
      (l.fragments.map fun f => f.rendered_width.val).sum := by
  constructor
  · intro k _
    unfold Line.width_until
    rw [List.take_succ]
    simp only [List.map_append, List.sum_append]
    exact Nat.le_add_right _ _
  · unfold Line.width_until Line.grapheme_count
    rw [List.take_length]

/-- C6 witness at a concrete two-fragment line. -/
theorem C6_width_until_monotone_total_witness :
    (Line.fromStr ['a', '世']).width_until 0 ≤ (Line.fromStr ['a', '世']).width_until 1 :=
  (C6_width_until_monotone_total (Line.fromStr ['a', '世'])).1 0 (by decide)

/-! ### Claim C7: split preserves the grapheme count and append undoes it -/

/-- C7: splitting partitions the grapheme count, and appending the split-off
tail back restores the original canonical text. -/
theorem C7_split_append_roundtrip (l : Line) (k : Nat) :
    (l.split k).2.grapheme_count + (l.split k).1.grapheme_count = l.grapheme_count ∧
    ((l.split k).1.append (l.split k).2).toText = l.toText := by
  unfold Line.split
  by_cases h : l.fragments.length < k
  · rw [if_pos h]
    constructor
    · simp [Line.grapheme_count]
    · show (Line.append l ⟨[]⟩).toText = l.toText
      unfold Line.append
      rw [toText_mk_str_to_fragments]
      show l.toText ++ (Line.mk []).toText = l.toText
      simp [Line.toText]
  · rw [if_neg h]
    constructor
    · show (l.fragments.drop k).length + (l.fragments.take k).length = l.fragments.length
      simp
      omega
    · show (Line.append ⟨l.fragments.take k⟩ ⟨l.fragments.drop k⟩).toText = l.toText
      unfold Line.append
      rw [toText_mk_str_to_fragments]
      show (Line.mk (l.fragments.take k)).toText ++ (Line.mk (l.fragments.drop k)).toText
        = l.toText
      unfold Line.toText
      simp only [← List.flatten_append, ← List.map_append, List.take_append_drop]

/-! ### Claim C3: save with and without a file identity -/

/-- C3 counterexample: with no path set, `save` does not fail with an
I/O error; it returns `Ok` having written nothing, and `dirty` stays set. -/
theorem C3_counterexample_save_no_path_is_ok :
    Buffer.save ⟨[Line.fromStr ['h', 'i']], ⟨none⟩, true⟩ =
      Except.ok (⟨[Line.fromStr ['h', 'i']], ⟨none⟩, true⟩, none) := rfl

/-- C3 amended: `save` never fails in this model; with no path set it is a
no-op returning `Ok` (nothing written, buffer including `dirty` unchanged);
with a path set it writes each Line's canonical text followed by a line
terminator, in order, and clears the dirty flag. -/
theorem C3_amended_save_behaviour (b : Buffer) :
    (b.file_info.path = none → b.save = Except.ok (b, none)) ∧
    (b.file_info.path.isSome = true →
      b.save = Except.ok ({ b with dirty := false },
        some ((b.lines.map fun line => line.toText ++ ['\n']).flatten))) := by
  constructor
  · intro h
    unfold Buffer.save
    rw [h]
  · intro h
    cases hp : b.file_info.path with
    | none => rw [hp] at h; simp at h
    | some p =>
      unfold Buffer.save
      rw [hp, writeAllLines_eq]

/-- C3 amended witness: both branches applied at concrete buffers. -/
theorem C3_amended_save_behaviour_witness :
    Buffer.save ⟨[], ⟨none⟩, false⟩ = Except.ok (⟨[], ⟨none⟩, false⟩, none) ∧
    Buffer.save ⟨[Line.fromStr ['h']], ⟨some ['f']⟩, true⟩ =
      Except.ok (⟨[Line.fromStr ['h']], ⟨some ['f']⟩, false⟩,
        some ((([Line.fromStr ['h']]).map fun line => line.toText ++ ['\n']).flatten)) := by
  constructor
  · exact (C3_amended_save_behaviour ⟨[], ⟨none⟩, false⟩).1 rfl
  · exact (C3_amended_save_behaviour ⟨[Line.fromStr ['h']], ⟨some ['f']⟩, true⟩).2 rfl

/-! ### Loop characterizations for insert_char and delete -/

theorem deleteLoop_shift (a i : Nat) :
    ∀ fs : List TextFragment, deleteLoop (a + 1) (i + 1) fs = deleteLoop a i fs := by
  intro fs
  induction fs generalizing a i with
  | nil => rfl
  | cons f fs ih =>
    show (if i + 1 = a + 1 then [] else f.grapheme) ++ deleteLoop (a + 1) (i + 1 + 1) fs
      = (if i = a then [] else f.grapheme) ++ deleteLoop a (i + 1) fs
    rw [ih]
    congr 1
    simp [Nat.succ_inj]

theorem deleteLoop_past (a i : Nat) (h : a < i) :
    ∀ fs : List TextFragment,
      deleteLoop a i fs = (fs.map TextFragment.grapheme).flatten := by
  intro fs
  induction fs generalizing i with
  | nil => rfl
  | cons f fs ih =>
    show (if i = a then [] else f.grapheme) ++ deleteLoop a (i + 1) fs = _
    rw [if_neg (by omega), ih (i + 1) (by omega)]
    simp

theorem deleteLoop_zero :
    ∀ (fs : List TextFragment) (a : Nat),
      deleteLoop a 0 fs = ((fs.map TextFragment.grapheme).eraseIdx a).flatten := by
  intro fs
  induction fs with
  | nil => intro a; rfl
  | cons f fs ih =>
    intro a
    cases a with
    | zero =>
      show (if 0 = 0 then [] else f.grapheme) ++ deleteLoop 0 1 fs = _
      rw [if_pos rfl, deleteLoop_past 0 1 (by omega)]
      simp [List.eraseIdx]
    | succ a' =>
      show (if 0 = a' + 1 then [] else f.grapheme) ++ deleteLoop (a' + 1) 1 fs = _
      rw [if_neg (by omega)]
      have h1 : deleteLoop (a' + 1) 1 fs = deleteLoop a' 0 fs := deleteLoop_shift a' 0 fs
      rw [h1, ih a']
      simp [List.eraseIdx]

/-- The canonical text after `Line::delete` is the original text with the
fragment at the deleted index removed. -/
theorem delete_toText (l : Line) (a : Nat) :
    (l.delete a).toText = ((l.fragments.map TextFragment.grapheme).eraseIdx a).flatten := by
  unfold Line.delete
  rw [toText_mk_str_to_fragments, deleteLoop_zero]

theorem insertLoop_shift (ch : Char) (a i : Nat) :
    ∀ fs : List TextFragment, insertLoop ch (a + 1) (i + 1) fs = insertLoop ch a i fs := by
  intro fs
  induction fs generalizing a i with
  | nil => rfl
  | cons f fs ih =>
    show (if i + 1 = a + 1 then [ch] else []) ++ f.grapheme ++ insertLoop ch (a + 1) (i + 1 + 1) fs
      = (if i = a then [ch] else []) ++ f.grapheme ++ insertLoop ch a (i + 1) fs
    rw [ih]
    congr 2
    simp [Nat.succ_inj]

theorem insertLoop_past (ch : Char) (a i : Nat) (h : a < i) :
    ∀ fs : List TextFragment,
      insertLoop ch a i fs = (fs.map TextFragment.grapheme).flatten := by
  intro fs
  induction fs generalizing i with
  | nil => rfl
  | cons f fs ih =>
    show (if i = a then [ch] else []) ++ f.grapheme ++ insertLoop ch a (i + 1) fs = _
    rw [if_neg (by omega), ih (i + 1) (by omega)]
    simp

/-- The string rebuilt by `Line::insert_char` is the text of the first
`a` fragments, then the character, then the text of the rest (also when
`a` is at or past the end, where the character is appended). -/
theorem insert_char_text (ch : Char) :
    ∀ (fs : List TextFragment) (a : Nat), a ≤ fs.length →
      insertLoop ch a 0 fs ++ (if fs.length ≤ a then [ch] else []) =
        ((fs.take a).map TextFragment.grapheme).flatten ++ ch ::
          ((fs.drop a).map TextFragment.grapheme).flatten := by
  intro fs
  induction fs with
  | nil =>
    intro a ha
    have ha0 : a = 0 := by simpa using ha
    subst ha0
    rfl
  | cons f fs ih =>
    intro a ha
    cases a with
    | zero =>
      show ((if 0 = 0 then [ch] else []) ++ f.grapheme ++ insertLoop ch 0 1 fs)
          ++ (if (f :: fs).length ≤ 0 then [ch] else []) = _
      rw [if_pos rfl, if_neg (show ¬((f :: fs).length ≤ 0) by simp),
        insertLoop_past ch 0 1 (by omega)]
      simp
    | succ a' =>
      show ((if 0 = a' + 1 then [ch] else []) ++ f.grapheme ++ insertLoop ch (a' + 1) 1 fs)
          ++ (if (f :: fs).length ≤ a' + 1 then [ch] else []) = _
      rw [if_neg (show ¬(0 = a' + 1) by omega), insertLoop_shift ch a' 0 fs]
      have ha' : a' ≤ fs.length := by
        simp only [List.length_cons] at ha
        omega
      simp only [List.length_cons, Nat.add_le_add_iff_right]
      have hrec := ih a' ha'
      simp only [List.take_succ_cons, List.drop_succ_cons, List.map_cons, List.flatten_cons,
        List.nil_append]
      rw [List.append_assoc, hrec]
      simp

/-! ### Claim C5: Buffer::delete case analysis -/

/-- C5: within the target line's bounds, delete delegates to the Line and
removes exactly that grapheme from the line's canonical text; at or past
line end with a next line present, the next line is removed from the
document and merged into the current line; at or past line end with no
next line, the document is unchanged. -/
theorem C5_buffer_delete_cases (b : Buffer) (loc : Location) (line : Line)
    (hline : b.lines.get? loc.line_index = some line) :
    (loc.grapheme_index < line.grapheme_count →
      b.delete loc = { b with
        lines := b.lines.set loc.line_index (line.delete loc.grapheme_index)
        dirty := true } ∧
      (line.delete loc.grapheme_index).toText =
        ((line.fragments.map TextFragment.grapheme).eraseIdx loc.grapheme_index).flatten) ∧
    (line.grapheme_count ≤ loc.grapheme_index → loc.line_index + 1 < b.height →
      ∀ next, b.lines.get? (loc.line_index + 1) = some next →
      b.delete loc = { b with
        lines := (b.lines.eraseIdx (loc.line_index + 1)).set loc.line_index (line.append next)
        dirty := true }) ∧
    (line.grapheme_count ≤ loc.grapheme_index → b.height ≤ loc.line_index + 1 →
      b.delete loc = b) := by
  refine ⟨?_, ?_, ?_⟩
  · intro h
    constructor
    · simp only [Buffer.delete, hline]
      rw [if_neg (show ¬(line.grapheme_count ≤ loc.grapheme_index ∧
          loc.line_index + 1 < b.height) by omega)]
      rw [if_pos h]
    · exact delete_toText line loc.grapheme_index
  · intro h1 h2 next hnext
    simp only [Buffer.delete, hline]
    rw [if_pos ⟨h1, h2⟩]
    simp only [hnext, Option.getD_some]
  · intro h1 h2
    simp only [Buffer.delete, hline]
    rw [if_neg (show ¬(line.grapheme_count ≤ loc.grapheme_index ∧
        loc.line_index + 1 < b.height) by omega)]
    rw [if_neg (show ¬(loc.grapheme_index < line.grapheme_count) by omega)]

/-- C5 witness: the three cases at concrete buffers. -/
theorem C5_buffer_delete_cases_witness :
    (Buffer.delete ⟨[Line.fromStr ['a', 'b']], ⟨none⟩, false⟩ ⟨0, 0⟩ =
      { lines := [Line.fromStr ['b']], file_info := ⟨none⟩, dirty := true }) ∧
    (Buffer.delete ⟨[Line.fromStr ['a'], Line.fromStr ['b']], ⟨none⟩, false⟩ ⟨1, 0⟩ =
      { lines := [Line.fromStr ['a', 'b']], file_info := ⟨none⟩, dirty := true }) ∧
    (Buffer.delete ⟨[Line.fromStr ['a']], ⟨none⟩, false⟩ ⟨1, 0⟩ =
      ⟨[Line.fromStr ['a']], ⟨none⟩, false⟩) := by
  refine ⟨?_, ?_, ?_⟩
  · have h := (C5_buffer_delete_cases ⟨[Line.fromStr ['a', 'b']], ⟨none⟩, false⟩ ⟨0, 0⟩
      (Line.fromStr ['a', 'b']) rfl).1 (by decide)
    rw [h.1]
    decide
  · have h := (C5_buffer_delete_cases ⟨[Line.fromStr ['a'], Line.fromStr ['b']], ⟨none⟩, false⟩
      ⟨1, 0⟩ (Line.fromStr ['a']) rfl).2.1 (by decide) (by decide) (Line.fromStr ['b']) rfl
    rw [h]
    decide
  · exact (C5_buffer_delete_cases ⟨[Line.fromStr ['a']], ⟨none⟩, false⟩ ⟨1, 0⟩
      (Line.fromStr ['a']) rfl).2.2 (by decide) (by decide)

/-! ### Claim C4: move_left -/

/-- Grapheme count of the line at an index, 0 when there is no such line
(the `map_or(0, Line::grapheme_count)` pattern of the View). -/
def lineCountAt (b : Buffer) (i : Nat) : Nat :=
  match b.lines.get? i with
  | some line => line.grapheme_count
  | none => 0

/-- C4 counterexample: at location (0,0) with a nonempty first line,
`move_left` does not leave the cursor unchanged — it jumps to the end of
line 0. -/
theorem C4_counterexample_move_left_at_origin :
    (View.move_left ⟨⟨[Line.fromStr ['a', 'b']], ⟨none⟩, false⟩, false, ⟨1, 1⟩, ⟨0, 0⟩,
      ⟨0, 0⟩⟩).text_location ≠ (⟨0, 0⟩ : Location) := by decide

/-- C4 amended: `move_left` decrements `grapheme_index` when it is
positive; otherwise it moves up one line (saturating at 0) and then to the
end of the resulting current line.  In particular at (0,0) the cursor moves
to the end of line 0, so it is unchanged there only when line 0 is empty or
absent. -/
theorem C4_amended_move_left (v : View) :
    (0 < v.text_location.grapheme_index →
      (v.move_left).text_location =
        ⟨v.text_location.grapheme_index - 1, v.text_location.line_index⟩) ∧
    (v.text_location.grapheme_index = 0 → 0 < v.text_location.line_index →
      (v.move_left).text_location =
        ⟨lineCountAt v.buffer (v.text_location.line_index - 1),
         v.text_location.line_index - 1⟩) ∧
    (v.text_location.grapheme_index = 0 → v.text_location.line_index = 0 →
      (v.move_left).text_location = ⟨lineCountAt v.buffer 0, 0⟩) := by
  refine ⟨?_, ?_, ?_⟩
  · intro h
    unfold View.move_left
    rw [if_pos h]
  · intro h0 hl
    unfold View.move_left
    rw [if_neg (show ¬(0 < v.text_location.grapheme_index) by omega)]
    unfold View.move_to_end_of_line View.move_up View.snap_to_valid_grapheme lineCountAt
    cases hget : v.buffer.lines.get? (v.text_location.line_index - 1) with
    | none => simp [hget]
    | some line => simp [hget]
  · intro h0 hl
    unfold View.move_left
    rw [if_neg (show ¬(0 < v.text_location.grapheme_index) by omega)]
    unfold View.move_to_end_of_line View.move_up View.snap_to_valid_grapheme lineCountAt
    rw [hl]

/-- C4 amended witness: the three cases at concrete views. -/
theorem C4_amended_move_left_witness :
    (View.move_left ⟨⟨[Line.fromStr ['a']], ⟨none⟩, false⟩, false, ⟨1, 1⟩, ⟨1, 0⟩,
      ⟨0, 0⟩⟩).text_location = ⟨0, 0⟩ ∧
    (View.move_left ⟨⟨[Line.fromStr ['a'], Line.fromStr ['b', 'c']], ⟨none⟩, false⟩, false,
      ⟨1, 1⟩, ⟨0, 1⟩, ⟨0, 0⟩⟩).text_location = ⟨1, 0⟩ ∧
    (View.move_left ⟨⟨[Line.fromStr ['a', 'b']], ⟨none⟩, false⟩, false, ⟨1, 1⟩, ⟨0, 0⟩,
      ⟨0, 0⟩⟩).text_location = ⟨2, 0⟩ := by
  refine ⟨?_, ?_, ?_⟩
  · exact ((C4_amended_move_left ⟨⟨[Line.fromStr ['a']], ⟨none⟩, false⟩, false, ⟨1, 1⟩,
      ⟨1, 0⟩, ⟨0, 0⟩⟩).1 (by decide)).trans (by decide)
  · exact ((C4_amended_move_left ⟨⟨[Line.fromStr ['a'], Line.fromStr ['b', 'c']], ⟨none⟩,
      false⟩, false, ⟨1, 1⟩, ⟨0, 1⟩, ⟨0, 0⟩⟩).2.1 (by decide) (by decide)).trans (by decide)
  · exact ((C4_amended_move_left ⟨⟨[Line.fromStr ['a', 'b']], ⟨none⟩, false⟩, false, ⟨1, 1⟩,
      ⟨0, 0⟩, ⟨0, 0⟩⟩).2.2 (by decide) (by decide)).trans (by decide)

/-! ### Fragment classification lemmas -/

theorem charUWidth_control {c : Char} (h : isControlChar c = true) : charUWidth c = 0 := by
  simp [charUWidth, h]

theorem charUWidth_extend {c : Char} (h : isExtendChar c = true) : charUWidth c = 0 := by
  simp [charUWidth, h]

theorem charUWidth_le_two (c : Char) : charUWidth c ≤ 2 := by
  unfold charUWidth
  split
  · omega
  · split <;> omega

theorem strUWidth_cons (c : Char) (rest : List Char) :
    strUWidth (c :: rest) = charUWidth c + strUWidth rest := by
  simp [strUWidth]

theorem strUWidth_extends {rest : List Char} (h : ∀ x ∈ rest, isExtendChar x = true) :
    strUWidth rest = 0 := by
  induction rest with
  | nil => rfl
  | cons x xs ih =>
    rw [strUWidth_cons, charUWidth_extend (h x (List.mem_cons_self _ _)),
      ih fun y hy => h y (List.mem_cons_of_mem _ hy)]

theorem strUWidth_clusterShape {g : List Char} (hs : clusterShape g) :
    ∃ c rest, g = c :: rest ∧ strUWidth g = charUWidth c := by
  cases g with
  | nil => exact absurd hs (by simp [clusterShape])
  | cons c rest =>
    refine ⟨c, rest, rfl, ?_⟩
    rw [strUWidth_cons, strUWidth_extends hs.1]
    omega

/-- Whenever `replace_character` yields a glyph, it is one of the four
fixed marker characters. -/
theorem replace_character_chars (g : List Char) (r : Char)
    (h : replace_character g = some r) :
    r = ' ' ∨ r = '␣' ∨ r = '▯' ∨ r = '·' := by
  revert h
  simp only [replace_character]
  repeat' split
  all_goals intro h
  all_goals first
    | exact Option.noConfusion h
    | (injection h with h; subst h; simp)

/-- A cluster of rendered width 0 always receives a replacement glyph. -/
theorem replace_character_isSome_of_width_zero (g : List Char)
    (h0 : strUWidth g = 0) : (replace_character g).isSome = true := by
  have hsp : g ≠ [' '] := by
    intro h
    subst h
    exact absurd h0 (by decide)
  simp only [replace_character]
  rw [if_neg hsp]
  split
  · rfl
  rw [if_neg (show ¬(0 < strUWidth g ∧ g.all isWhitespaceChar = true) from
    fun hc => by omega)]
  split
  · split <;> rfl
  · rfl

/-- On a non-space, non-tab, positive-width all-whitespace cluster,
`replace_character` yields the blank marker. -/
theorem replace_character_blank (g : List Char) (hne : g ≠ [' ']) (hnt : g ≠ ['\t'])
    (hw : 0 < strUWidth g) (hall : g.all isWhitespaceChar = true) :
    replace_character g = some '␣' := by
  simp only [replace_character]
  rw [if_neg hne, if_neg hnt, if_pos ⟨hw, hall⟩]

/-! ### Claim C10: no fragment ever has rendered width 0 -/

/-- C10's property of one fragment: the rendered width is Half (1) or
Full (2); clusters of Unicode width 0, tabs, non-space blank clusters and
single control characters get Half width and a replacement glyph. -/
def fragNeverZero (f : TextFragment) : Prop :=
  (f.rendered_width = .Half ∨ f.rendered_width = .Full) ∧
  (strUWidth f.grapheme = 0 → f.replacement.isSome = true ∧ f.rendered_width = .Half) ∧
  (f.grapheme = ['\t'] → f.replacement = some ' ' ∧ f.rendered_width = .Half) ∧
  (f.grapheme ≠ [' '] → 0 < strUWidth f.grapheme →
    f.grapheme.all isWhitespaceChar = true →
    f.replacement = some '␣' ∧ f.rendered_width = .Half) ∧
  (∀ c, f.grapheme = [c] → isControlChar c = true →
    f.replacement.isSome = true ∧ f.rendered_width = .Half)

theorem fragNeverZero_build (g : List Char) : fragNeverZero (buildFragment g) := by
  cases hrc : replace_character g with
  | some r =>
    have hb : buildFragment g = ⟨g, .Half, some r⟩ := by
      simp only [buildFragment, hrc]
    rw [hb]
    refine ⟨Or.inl rfl, fun _ => ⟨rfl, rfl⟩, ?_, ?_, fun c _ _ => ⟨rfl, rfl⟩⟩
    · intro hg
      replace hg : g = ['\t'] := hg
      subst hg
      have htab : replace_character ['\t'] = some ' ' := by decide
      rw [htab] at hrc
      injection hrc with hr
      exact ⟨by rw [hr], rfl⟩
    · intro hne hw hall
      replace hne : g ≠ [' '] := hne
      replace hw : 0 < strUWidth g := hw
      replace hall : g.all isWhitespaceChar = true := hall
      have hnt : g ≠ ['\t'] := by
        intro hg
        subst hg
        exact absurd hw (by decide)
      rw [replace_character_blank g hne hnt hw hall] at hrc
      injection hrc with hr
      exact ⟨by rw [hr], rfl⟩
  | none =>
    have hb : buildFragment g =
        ⟨g, if strUWidth g = 0 ∨ strUWidth g = 1 then .Half else .Full, none⟩ := by
      simp only [buildFragment, hrc]
    rw [hb]
    have hw0 : strUWidth g ≠ 0 := by
      intro h0
      have hsome := replace_character_isSome_of_width_zero g h0
      rw [hrc] at hsome
      exact absurd hsome (by simp)
    refine ⟨?_, ?_, ?_, ?_, ?_⟩
    · show (if strUWidth g = 0 ∨ strUWidth g = 1 then GraphemeWidth.Half
        else GraphemeWidth.Full) = .Half ∨ (if strUWidth g = 0 ∨ strUWidth g = 1
        then GraphemeWidth.Half else GraphemeWidth.Full) = .Full
      split
      · exact Or.inl rfl
      · exact Or.inr rfl
    · intro h0
      exact absurd h0 hw0
    · intro hg
      replace hg : g = ['\t'] := hg
      subst hg
      exact absurd hrc (by decide)
    · intro hne hw hall
      replace hne : g ≠ [' '] := hne
      replace hw : 0 < strUWidth g := hw
      replace hall : g.all isWhitespaceChar = true := hall
      have hnt : g ≠ ['\t'] := by
        intro hg
        subst hg
        exact absurd hw (by decide)
      rw [replace_character_blank g hne hnt hw hall] at hrc
      exact Option.noConfusion hrc
    · intro c hgc hctrl
      replace hgc : g = [c] := hgc
      subst hgc
      have h0 : strUWidth [c] = 0 := by
        rw [strUWidth_cons, charUWidth_control hctrl]
        rfl
      exact absurd h0 hw0

theorem fragNeverZero_str_to_fragments (s : List Char) :
    ∀ f ∈ str_to_fragments s, fragNeverZero f := by
  intro f hf
  rw [str_to_fragments] at hf
  obtain ⟨g, _, rfl⟩ := List.mem_map.mp hf
  exact fragNeverZero_build g

/-- C10: every fragment produced by Line construction or mutation has
rendered width exactly Half (1 column) or Full (2 columns), never 0;
zero-width clusters, tabs, non-space blank clusters and single control
characters are assigned Half width together with a replacement glyph. -/
theorem C10_fragments_never_zero_width :
    (∀ s : List Char, ∀ f ∈ (Line.fromStr s).fragments, fragNeverZero f) ∧
    (∀ (l : Line) (c : Char) (k : Nat),
      ∀ f ∈ (l.insert_char c k).fragments, fragNeverZero f) ∧
    (∀ (l : Line) (k : Nat), ∀ f ∈ (l.delete k).fragments, fragNeverZero f) ∧
    (∀ l other : Line, ∀ f ∈ (l.append other).fragments, fragNeverZero f) := by
  refine ⟨?_, ?_, ?_, ?_⟩
  · intro s f hf
    exact fragNeverZero_str_to_fragments s f hf
  · intro l c k f hf
    exact fragNeverZero_str_to_fragments _ f hf
  · intro l k f hf
    exact fragNeverZero_str_to_fragments _ f hf
  · intro l other f hf
    exact fragNeverZero_str_to_fragments _ f hf

/-- C10 witness: the tab fragment of `Line::from("\t")`. -/
theorem C10_fragments_never_zero_width_witness :
    fragNeverZero ⟨['\t'], .Half, some ' '⟩ :=
  C10_fragments_never_zero_width.1 ['\t'] ⟨['\t'], .Half, some ' '⟩ (by decide)

/-! ### Claim C2: get_visible_graphemes -/

/-- Width metadata consistency of one fragment, as established by
`str_to_fragments`: a replacement glyph is a single column and comes with
Half width; without a replacement, the grapheme's Unicode width equals the
recorded rendered width. -/
def fragWF (f : TextFragment) : Prop :=
  match f.replacement with
  | some c => charUWidth c = 1 ∧ f.rendered_width = .Half
  | none => strUWidth f.grapheme = f.rendered_width.val

instance (f : TextFragment) : Decidable (fragWF f) := by
  unfold fragWF
  cases f.replacement <;> infer_instance

/-- A line whose fragments all carry consistent width metadata; every line
the program builds satisfies this. -/
def Line.WF (l : Line) : Prop := ∀ f ∈ l.fragments, fragWF f

instance (l : Line) : Decidable l.WF := by
  unfold Line.WF
  infer_instance

theorem fragWF_build (g : List Char) (hs : clusterShape g) : fragWF (buildFragment g) := by
  cases hrc : replace_character g with
  | some r =>
    have hb : buildFragment g = ⟨g, .Half, some r⟩ := by
      simp only [buildFragment, hrc]
    rw [hb]
    show charUWidth r = 1 ∧ GraphemeWidth.Half = GraphemeWidth.Half
    refine ⟨?_, rfl⟩
    rcases replace_character_chars g r hrc with h | h | h | h <;> subst h <;> decide
  | none =>
    have hb : buildFragment g =
        ⟨g, if strUWidth g = 0 ∨ strUWidth g = 1 then .Half else .Full, none⟩ := by
      simp only [buildFragment, hrc]
    rw [hb]
    show strUWidth g = (if strUWidth g = 0 ∨ strUWidth g = 1
      then GraphemeWidth.Half else GraphemeWidth.Full).val
    have hw0 : strUWidth g ≠ 0 := by
      intro h0
      have hsome := replace_character_isSome_of_width_zero g h0
      rw [hrc] at hsome
      exact absurd hsome (by simp)
    obtain ⟨c, rest, rfl, hwc⟩ := strUWidth_clusterShape hs
    have hle := charUWidth_le_two c
    by_cases h1 : strUWidth (c :: rest) = 1
    · rw [if_pos (Or.inr h1), h1]
      rfl
    · rw [if_neg (show ¬(strUWidth (c :: rest) = 0 ∨ strUWidth (c :: rest) = 1) by omega)]
      show strUWidth (c :: rest) = 2
      omega

theorem WF_str_to_fragments (s : List Char) : ∀ f ∈ str_to_fragments s, fragWF f := by
  intro f hf
  rw [str_to_fragments] at hf
  obtain ⟨g, hg, rfl⟩ := List.mem_map.mp hf
  exact fragWF_build g ((chainOK_graphemes s).1 g hg)

theorem WF_fromStr (s : List Char) : (Line.fromStr s).WF :=
  WF_str_to_fragments s

theorem WF_insert_char (l : Line) (c : Char) (k : Nat) : (l.insert_char c k).WF :=
  WF_str_to_fragments _

theorem WF_delete (l : Line) (k : Nat) : (l.delete k).WF :=
  WF_str_to_fragments _

theorem WF_append (l other : Line) : (l.append other).WF :=
  WF_str_to_fragments _

theorem WF_split (l : Line) (k : Nat) (h : l.WF) :
    (l.split k).1.WF ∧ (l.split k).2.WF := by
  unfold Line.split
  by_cases hk : l.fragments.length < k
  · rw [if_pos hk]
    exact ⟨h, by intro f hf; simp at hf⟩
  · rw [if_neg hk]
    constructor
    · intro f hf
      exact h f (List.take_subset k l.fragments hf)
    · intro f hf
      exact h f (List.drop_subset k l.fragments hf)

theorem GraphemeWidth.val_pos (w : GraphemeWidth) : 0 < w.val := by
  cases w <;> decide

theorem saturating_add_val (w : GraphemeWidth) (pos : Nat) :
    w.saturating_add pos = pos + w.val := by
  cases w <;> rfl

theorem strUWidth_append (a b : List Char) :
    strUWidth (a ++ b) = strUWidth a + strUWidth b := by
  simp [strUWidth]

theorem visPiece_width {f : TextFragment} (h : fragWF f) :
    strUWidth (visPiece f) ≤ f.rendered_width.val := by
  cases hr : f.replacement with
  | some c =>
    have hv : visPiece f = [c] := by simp only [visPiece, hr]
    simp only [fragWF, hr] at h
    rw [hv, strUWidth_cons]
    have := GraphemeWidth.val_pos f.rendered_width
    have hc1 : charUWidth c = 1 := h.1
    rw [hc1]
    show 1 + strUWidth [] ≤ _
    have h0 : strUWidth ([] : List Char) = 0 := rfl
    omega
  | none =>
    have hv : visPiece f = f.grapheme := by simp only [visPiece, hr]
    simp only [fragWF, hr] at h
    rw [hv]
    omega

/-- Fragments paired with their display start positions, accumulated the
way the loop of `get_visible_graphemes` accumulates `current_pos`. -/
def fragPositions : Nat → List TextFragment → List (TextFragment × Nat)
  | _, [] => []
  | pos, f :: fs => (f, pos) :: fragPositions (f.rendered_width.saturating_add pos) fs

/-- The specification's per-fragment rendering rule over the window
`[rstart, rend)`: a fragment entirely outside the window is skipped, a
fragment fully inside renders as its glyph or override, and a fragment
that only partially overlaps the window renders as a single ellipsis
placeholder. -/
def ruleRender (rstart rend : Nat) (fp : TextFragment × Nat) : List Char :=
  if rend ≤ fp.2 ∨ fp.2 + fp.1.rendered_width.val ≤ rstart then []
  else if rstart ≤ fp.2 ∧ fp.2 + fp.1.rendered_width.val ≤ rend then visPiece fp.1
  else [ellipsisChar]

/-- The specification's description of the visible slice: the per-fragment
rule applied to every fragment, nothing for an empty window. -/
def visibleSliceSpec (l : Line) (rstart rend : Nat) : List Char :=
  if rend ≤ rstart then []
  else ((fragPositions 0 l.fragments).map (ruleRender rstart rend)).flatten

theorem ruleRender_outside (rstart rend : Nat) :
    ∀ (fs : List TextFragment) (pos : Nat), rend ≤ pos →
      ((fragPositions pos fs).map (ruleRender rstart rend)).flatten = [] := by
  intro fs
  induction fs with
  | nil => intro pos _; rfl
  | cons f fs ih =>
    intro pos hpos
    show (ruleRender rstart rend (f, pos) ++
      ((fragPositions (f.rendered_width.saturating_add pos) fs).map
        (ruleRender rstart rend)).flatten) = []
    rw [ih (f.rendered_width.saturating_add pos)
      (by rw [saturating_add_val]; omega)]
    unfold ruleRender
    rw [if_pos (Or.inl hpos)]
    rfl

theorem get_visible_loop_eq_rule (rstart rend : Nat) :
    ∀ (fs : List TextFragment) (pos : Nat),
      get_visible_loop rstart rend pos fs =
        ((fragPositions pos fs).map (ruleRender rstart rend)).flatten := by
  intro fs
  induction fs with
  | nil => intro pos; rfl
  | cons f fs ih =>
    intro pos
    show (if rend ≤ pos then [] else
      (if rstart < f.rendered_width.saturating_add pos then
        (if rend < f.rendered_width.saturating_add pos ∨ pos < rstart
          then [ellipsisChar] else visPiece f)
      else []) ++ get_visible_loop rstart rend (f.rendered_width.saturating_add pos) fs) =
      (ruleRender rstart rend (f, pos) ++
        ((fragPositions (f.rendered_width.saturating_add pos) fs).map
          (ruleRender rstart rend)).flatten)
    rw [saturating_add_val]
    by_cases h1 : rend ≤ pos
    · rw [if_pos h1, ruleRender_outside rstart rend fs (pos + f.rendered_width.val) (by omega)]
      unfold ruleRender
      rw [if_pos (Or.inl h1)]
      rfl
    · rw [if_neg h1, ih (pos + f.rendered_width.val)]
      congr 1
      unfold ruleRender
      by_cases h2 : rstart < pos + f.rendered_width.val
      · rw [if_pos h2]
        by_cases h3 : rend < pos + f.rendered_width.val ∨ pos < rstart
        · rw [if_pos h3,
            if_neg (show ¬(rend ≤ (f, pos).2 ∨
              (f, pos).2 + (f, pos).1.rendered_width.val ≤ rstart) by
                show ¬(rend ≤ pos ∨ pos + f.rendered_width.val ≤ rstart); omega),
            if_neg (show ¬(rstart ≤ (f, pos).2 ∧
              (f, pos).2 + (f, pos).1.rendered_width.val ≤ rend) by
                show ¬(rstart ≤ pos ∧ pos + f.rendered_width.val ≤ rend); omega)]
        · rw [if_neg h3,
            if_neg (show ¬(rend ≤ (f, pos).2 ∨
              (f, pos).2 + (f, pos).1.rendered_width.val ≤ rstart) by
                show ¬(rend ≤ pos ∨ pos + f.rendered_width.val ≤ rstart); omega),
            if_pos (show rstart ≤ (f, pos).2 ∧
              (f, pos).2 + (f, pos).1.rendered_width.val ≤ rend from
                show rstart ≤ pos ∧ pos + f.rendered_width.val ≤ rend by omega)]
      · rw [if_neg h2,
          if_pos (show rend ≤ (f, pos).2 ∨
            (f, pos).2 + (f, pos).1.rendered_width.val ≤ rstart from
              Or.inr (show pos + f.rendered_width.val ≤ rstart by omega))]

theorem get_visible_loop_width (rstart rend : Nat) (hlt : rstart < rend) :
    ∀ (fs : List TextFragment) (pos : Nat), (∀ f ∈ fs, fragWF f) →
      strUWidth (get_visible_loop rstart rend pos fs) ≤ rend - max pos rstart := by
  intro fs
  induction fs with
  | nil =>
    intro pos _
    show strUWidth [] ≤ _
    simp [strUWidth]
  | cons f fs ih =>
    intro pos hWF
    have hWFf : fragWF f := hWF f (List.mem_cons_self _ _)
    have hWF' : ∀ x ∈ fs, fragWF x := fun x hx => hWF x (List.mem_cons_of_mem _ hx)
    have hval := GraphemeWidth.val_pos f.rendered_width
    show strUWidth (if rend ≤ pos then [] else
      (if rstart < f.rendered_width.saturating_add pos then
        (if rend < f.rendered_width.saturating_add pos ∨ pos < rstart
          then [ellipsisChar] else visPiece f)
      else []) ++ get_visible_loop rstart rend (f.rendered_width.saturating_add pos) fs)
      ≤ rend - max pos rstart
    rw [saturating_add_val]
    by_cases h1 : rend ≤ pos
    · rw [if_pos h1]
      show strUWidth [] ≤ _
      simp [strUWidth]
    · rw [if_neg h1, strUWidth_append]
      have hrec := ih (pos + f.rendered_width.val) hWF'
      by_cases h2 : rstart < pos + f.rendered_width.val
      · rw [if_pos h2]
        by_cases h3 : rend < pos + f.rendered_width.val ∨ pos < rstart
        · rw [if_pos h3]
          have hell : strUWidth [ellipsisChar] = 1 := by decide
          rw [hell]
          omega
        · rw [if_neg h3]
          have hpw := visPiece_width hWFf
          omega
      · rw [if_neg h2]
        show strUWidth [] + _ ≤ _
        have h0 : strUWidth ([] : List Char) = 0 := rfl
        rw [h0]
        omega

/-- C2: for (well-formed) Lines and any display-column window, the visible
slice's rendered width never exceeds the window width, and the slice is
exactly the specification's per-fragment rule: fragments fully inside the
window render as glyph or override, partially overlapping fragments render
as a single ellipsis placeholder, fragments entirely outside are skipped. -/
theorem C2_visible_slice_width_and_rule (l : Line) (hWF : l.WF) (rstart rend : Nat) :
    strUWidth (l.get_visible_graphemes rstart rend) ≤ rend - rstart ∧
    l.get_visible_graphemes rstart rend = visibleSliceSpec l rstart rend := by
  constructor
  · unfold Line.get_visible_graphemes
    by_cases h : rend ≤ rstart
    · rw [if_pos h]
      show strUWidth [] ≤ _
      simp [strUWidth]
    · rw [if_neg h]
      have hb := get_visible_loop_width rstart rend (by omega) l.fragments 0 hWF
      have hm : max 0 rstart = rstart := by omega
      rw [hm] at hb
      exact hb
  · unfold Line.get_visible_graphemes visibleSliceSpec
    by_cases h : rend ≤ rstart
    · rw [if_pos h, if_pos h]
    · rw [if_neg h, if_neg h]
      exact get_visible_loop_eq_rule rstart rend l.fragments 0

/-- C2 witness: the specification's scenario, a line `世界` of two
full-width graphemes over the window `[0, 3)` showing `世` plus an
ellipsis. -/
theorem C2_visible_slice_width_and_rule_witness :
    (strUWidth ((Line.fromStr ['世', '界']).get_visible_graphemes 0 3) ≤ 3 - 0 ∧
      (Line.fromStr ['世', '界']).get_visible_graphemes 0 3 =
        visibleSliceSpec (Line.fromStr ['世', '界']) 0 3) ∧
    (Line.fromStr ['世', '界']).get_visible_graphemes 0 3 = ['世', ellipsisChar] :=
  ⟨C2_visible_slice_width_and_rule (Line.fromStr ['世', '界']) (by decide) 0 3, by decide⟩

/-! ### Claim C9: save normalization and load/save round trip -/

theorem getLast?_mem {α : Type} {l : List α} {a : α} (h : l.getLast? = some a) : a ∈ l := by
  induction l with
  | nil => exact absurd h (by simp)
  | cons x xs ih =>
    cases hxs : xs with
    | nil =>
      rw [hxs] at h
      simp at h
      simp [h]
    | cons y ys =>
      rw [hxs] at ih
      rw [show (x :: xs).getLast? = xs.getLast? by rw [hxs]; rfl] at h
      rw [hxs] at h
      exact List.mem_cons_of_mem _ (ih h)

/-- Every piece of `split_inclusive('\n')` is newline-free text, optionally
followed by one final newline. -/
theorem splitInclusiveNl_mem :
    ∀ (s : List Char), ∀ q ∈ splitInclusiveNl s,
      ∃ q', ('\n' ∉ q') ∧ (q = q' ++ ['\n'] ∨ q = q') := by
  intro s
  induction s with
  | nil => intro q hq; simp [splitInclusiveNl] at hq
  | cons c cs ih =>
    intro q hq
    by_cases hc : c = '\n'
    · rw [show splitInclusiveNl (c :: cs) = [c] :: splitInclusiveNl cs by
        simp [splitInclusiveNl, hc]] at hq
      rcases List.mem_cons.mp hq with h | h
      · subst hc
        exact ⟨[], by simp, Or.inl (by simp [h])⟩
      · exact ih q h
    · cases hsp : splitInclusiveNl cs with
      | nil =>
        rw [show splitInclusiveNl (c :: cs) = [[c]] by
          simp [splitInclusiveNl, hc, hsp]] at hq
        simp at hq
        refine ⟨[c], ?_, Or.inr hq⟩
        intro hmem
        simp at hmem
        exact hc hmem.symm
      | cons p ps =>
        rw [show splitInclusiveNl (c :: cs) = (c :: p) :: ps by
          simp [splitInclusiveNl, hc, hsp]] at hq
        rcases List.mem_cons.mp hq with h | h
        · obtain ⟨p', hp1, hp2⟩ := ih p (by rw [hsp]; exact List.mem_cons_self _ _)
          have hmemc : '\n' ∉ c :: p' := by
            intro hmem
            rcases List.mem_cons.mp hmem with hh | hh
            · exact hc hh.symm
            · exact hp1 hh
          rcases hp2 with h2 | h2
          · refine ⟨c :: p', hmemc, Or.inl ?_⟩
            rw [h, h2]
            rfl
          · refine ⟨c :: p', hmemc, Or.inr ?_⟩
            rw [h, h2]
        · exact ih q (by rw [hsp]; exact List.mem_cons_of_mem _ h)

/-- Loaded lines never contain a newline. -/
theorem linesOf_no_newline : ∀ (s : List Char), ∀ p ∈ linesOf s, '\n' ∉ p := by
  intro s p hp
  rw [linesOf] at hp
  obtain ⟨q, hq, rfl⟩ := List.mem_map.mp hp
  obtain ⟨q', hq'nl, hdec⟩ := splitInclusiveNl_mem s q hq
  rcases hdec with h | h
  · subst h
    rw [rustLineStrip, if_pos (by rw [List.getLast?_concat]), List.dropLast_concat]
    split
    · intro hmem
      exact hq'nl (List.dropLast_sublist q' |>.subset hmem)
    · exact hq'nl
  · rw [h, rustLineStrip, if_neg (show ¬(List.getLast? q' = some '\n') from fun hl =>
      hq'nl (getLast?_mem hl))]
    exact hq'nl

/-- `split_inclusive` is a left inverse of joining newline-free pieces each
terminated by one newline. -/
theorem splitInclusiveNl_join_piece :
    ∀ (p rest : List Char), '\n' ∉ p →
      splitInclusiveNl (p ++ '\n' :: rest) = (p ++ ['\n']) :: splitInclusiveNl rest := by
  intro p
  induction p with
  | nil =>
    intro rest _
    simp [splitInclusiveNl]
  | cons a p' ih =>
    intro rest hnl
    have ha : a ≠ '\n' := fun h => hnl (h ▸ List.mem_cons_self _ _)
    have hp' : '\n' ∉ p' := fun h => hnl (List.mem_cons_of_mem _ h)
    have hrec := ih rest hp'
    show splitInclusiveNl (a :: (p' ++ '\n' :: rest)) = ((a :: p') ++ ['\n']) :: _
    rw [show splitInclusiveNl (a :: (p' ++ '\n' :: rest)) =
      (if a = '\n' then ['\n'] :: splitInclusiveNl (p' ++ '\n' :: rest)
       else match splitInclusiveNl (p' ++ '\n' :: rest) with
       | [] => [[a]]
       | q :: qs => (a :: q) :: qs) from by
        simp only [splitInclusiveNl]
        split
        · rename_i hcontra
          exact absurd hcontra ha
        · rfl]
    rw [if_neg ha, hrec]
    rfl

theorem splitInclusiveNl_of_pieces :
    ∀ pieces : List (List Char), (∀ p ∈ pieces, '\n' ∉ p) →
      splitInclusiveNl ((pieces.map fun p => p ++ ['\n']).flatten) =
        pieces.map fun p => p ++ ['\n'] := by
  intro pieces
  induction pieces with
  | nil => intro _; rfl
  | cons p rest ih =>
    intro h
    have hp : '\n' ∉ p := h p (List.mem_cons_self _ _)
    have hrest := ih fun x hx => h x (List.mem_cons_of_mem _ hx)
    show splitInclusiveNl ((p ++ ['\n']) ++ (rest.map fun q => q ++ ['\n']).flatten) = _
    rw [show (p ++ ['\n']) ++ (rest.map fun q => q ++ ['\n']).flatten =
      p ++ '\n' :: (rest.map fun q => q ++ ['\n']).flatten by simp]
    rw [splitInclusiveNl_join_piece p _ hp, hrest]
    rfl

theorem rustLineStrip_append_nl (p : List Char) (h : p.getLast? ≠ some '\r') :
    rustLineStrip (p ++ ['\n']) = p := by
  rw [rustLineStrip, if_pos (by rw [List.getLast?_concat]), List.dropLast_concat,
    if_neg h]

/-- C9 counterexample: a file whose single line ends in a bare carriage
return is not stable under load-save-load; the claimed idempotence fails at
the input "a\r". -/
theorem C9_counterexample_bare_cr :
    Buffer.load ['f'] (writeAllLines (Buffer.load ['f'] ['a', '\r']).lines) ≠
      Buffer.load ['f'] ['a', '\r'] := by decide

/-- C9 amended: on save every Line is written followed by exactly one
newline, including the last; and for every input text none of whose loaded
lines ends with a carriage return, load(save(load(text))) yields the same
document as load(text). -/
theorem C9_amended_save_load_roundtrip (name text : List Char)
    (hcr : ∀ p ∈ linesOf text, p.getLast? ≠ some '\r') :
    writeAllLines (Buffer.load name text).lines =
      (((Buffer.load name text).lines).map fun l => l.toText ++ ['\n']).flatten ∧
    Buffer.load name (writeAllLines (Buffer.load name text).lines) =
      Buffer.load name text := by
  refine ⟨writeAllLines_eq _, ?_⟩
  have hwrite : writeAllLines (Buffer.load name text).lines =
      ((linesOf text).map fun p => p ++ ['\n']).flatten := by
    rw [writeAllLines_eq]
    show ((((linesOf text).map Line.fromStr).map fun l => l.toText ++ ['\n']).flatten) = _
    rw [List.map_map]
    congr 1
    refine List.map_congr_left fun p _ => ?_
    show (Line.fromStr p).toText ++ ['\n'] = p ++ ['\n']
    rw [toText_fromStr]
  have hlines : linesOf (((linesOf text).map fun p => p ++ ['\n']).flatten) = linesOf text := by
    rw [linesOf, splitInclusiveNl_of_pieces (linesOf text) (linesOf_no_newline text),
      List.map_map]
    calc ((linesOf text).map (rustLineStrip ∘ fun p => p ++ ['\n']))
        = (linesOf text).map id := by
          refine List.map_congr_left fun p hp => ?_
          show rustLineStrip (p ++ ['\n']) = p
          exact rustLineStrip_append_nl p (hcr p hp)
      _ = linesOf text := List.map_id _
  rw [hwrite]
  show Buffer.load name (((linesOf text).map fun p => p ++ ['\n']).flatten) =
    Buffer.load name text
  unfold Buffer.load
  rw [hlines]

/-- C9 amended witness: a concrete two-line text round-trips. -/
theorem C9_amended_save_load_roundtrip_witness :
    Buffer.load ['f'] (writeAllLines (Buffer.load ['f'] ['h', 'i', '\n', 'o', 'k']).lines) =
      Buffer.load ['f'] ['h', 'i', '\n', 'o', 'k'] :=
  (C9_amended_save_load_roundtrip ['f'] ['h', 'i', '\n', 'o', 'k'] (by decide)).2

/-! ### Claim C1: the scroll-into-view invariant -/

theorem scroll_vertically_fields (v : View) (t : Nat) :
    (v.scroll_vertically t).buffer = v.buffer ∧
    (v.scroll_vertically t).text_location = v.text_location ∧
    (v.scroll_vertically t).size = v.size ∧
    (v.scroll_vertically t).scroll_offset.col = v.scroll_offset.col := by
  unfold View.scroll_vertically
  repeat' split
  all_goals exact ⟨rfl, rfl, rfl, rfl⟩

theorem scroll_horizontally_fields (v : View) (t : Nat) :
    (v.scroll_horizontally t).buffer = v.buffer ∧
    (v.scroll_horizontally t).text_location = v.text_location ∧
    (v.scroll_horizontally t).size = v.size ∧
    (v.scroll_horizontally t).scroll_offset.row = v.scroll_offset.row := by
  unfold View.scroll_horizontally
  repeat' split
  all_goals exact ⟨rfl, rfl, rfl, rfl⟩

theorem scroll_vertically_row_eq (v : View) (t : Nat) :
    (v.scroll_vertically t).scroll_offset.row =
      (if t < v.scroll_offset.row then t
       else if v.scroll_offset.row + v.size.height ≤ t then t - v.size.height + 1
       else v.scroll_offset.row) := by
  unfold View.scroll_vertically
  by_cases h1 : t < v.scroll_offset.row
  · rw [if_pos h1, if_pos h1]
  · rw [if_neg h1, if_neg h1]
    by_cases h2 : v.scroll_offset.row + v.size.height ≤ t
    · rw [if_pos h2, if_pos h2]
    · rw [if_neg h2, if_neg h2]

theorem scroll_horizontally_col_eq (v : View) (t : Nat) :
    (v.scroll_horizontally t).scroll_offset.col =
      (if t < v.scroll_offset.col then t
       else if v.scroll_offset.col + v.size.width ≤ t then t - v.size.width + 1
       else v.scroll_offset.col) := by
  unfold View.scroll_horizontally
  by_cases h1 : t < v.scroll_offset.col
  · rw [if_pos h1, if_pos h1]
  · rw [if_neg h1, if_neg h1]
    by_cases h2 : v.scroll_offset.col + v.size.width ≤ t
    · rw [if_pos h2, if_pos h2]
    · rw [if_neg h2, if_neg h2]

/-- The minimal-motion adjustment keeps the coordinate in the window when
the extent is positive. -/
theorem scrollAdjust_bounds (off e t : Nat) (h : 0 < e) :
    (if t < off then t else if off + e ≤ t then t - e + 1 else off) ≤ t ∧
    t < (if t < off then t else if off + e ≤ t then t - e + 1 else off) + e := by
  constructor
  · split
    · omega
    · split <;> omega
  · split
    · omega
    · split <;> omega

theorem pos_congr {v w : View} (hb : w.buffer = v.buffer)
    (ht : w.text_location = v.text_location) :
    w.text_location_to_position = v.text_location_to_position := by
  unfold View.text_location_to_position
  rw [hb, ht]

theorem scrollIntoView_inView (v : View) (hh : 0 < v.size.height) (hw : 0 < v.size.width) :
    cursorInView (v.scroll_text_location_into_view) := by
  have hdef : v.scroll_text_location_into_view =
      (v.scroll_vertically v.text_location_to_position.row).scroll_horizontally
        v.text_location_to_position.col := rfl
  obtain ⟨hb1, ht1, hs1, hc1⟩ := scroll_vertically_fields v v.text_location_to_position.row
  obtain ⟨hb2, ht2, hs2, hr2⟩ := scroll_horizontally_fields
    (v.scroll_vertically v.text_location_to_position.row) v.text_location_to_position.col
  rw [hdef]
  have hpos : ((v.scroll_vertically v.text_location_to_position.row).scroll_horizontally
      v.text_location_to_position.col).text_location_to_position =
      v.text_location_to_position :=
    pos_congr (hb2.trans hb1) (ht2.trans ht1)
  have hsize : ((v.scroll_vertically v.text_location_to_position.row).scroll_horizontally
      v.text_location_to_position.col).size = v.size := hs2.trans hs1
  have hrow : ((v.scroll_vertically v.text_location_to_position.row).scroll_horizontally
      v.text_location_to_position.col).scroll_offset.row =
      (if v.text_location_to_position.row < v.scroll_offset.row
       then v.text_location_to_position.row
       else if v.scroll_offset.row + v.size.height ≤ v.text_location_to_position.row
       then v.text_location_to_position.row - v.size.height + 1
       else v.scroll_offset.row) :=
    hr2.trans (scroll_vertically_row_eq v v.text_location_to_position.row)
  have hcol : ((v.scroll_vertically v.text_location_to_position.row).scroll_horizontally
      v.text_location_to_position.col).scroll_offset.col =
      (if v.text_location_to_position.col < v.scroll_offset.col
       then v.text_location_to_position.col
       else if v.scroll_offset.col + v.size.width ≤ v.text_location_to_position.col
       then v.text_location_to_position.col - v.size.width + 1
       else v.scroll_offset.col) := by
    rw [scroll_horizontally_col_eq, hc1]
    have hwidth : (v.scroll_vertically v.text_location_to_position.row).size.width
        = v.size.width := by rw [hs1]
    rw [hwidth]
  have hvb := scrollAdjust_bounds v.scroll_offset.row v.size.height
    v.text_location_to_position.row hh
  have hhb := scrollAdjust_bounds v.scroll_offset.col v.size.width
    v.text_location_to_position.col hw
  unfold cursorInView
  rw [hpos, hsize, hrow, hcol]
  exact ⟨hvb.1, hvb.2, hhb.1, hhb.2⟩

/-- Like `scrollIntoView_inView`, with the size conditions read off the
result (whose size equals the input's). -/
theorem scrollIntoView_inView' (w : View)
    (hh : 0 < (w.scroll_text_location_into_view).size.height)
    (hw : 0 < (w.scroll_text_location_into_view).size.width) :
    cursorInView (w.scroll_text_location_into_view) := by
  have hdef : w.scroll_text_location_into_view =
      (w.scroll_vertically w.text_location_to_position.row).scroll_horizontally
        w.text_location_to_position.col := rfl
  have hs : (w.scroll_text_location_into_view).size = w.size := by
    rw [hdef]
    exact (scroll_horizontally_fields _ _).2.2.1.trans (scroll_vertically_fields _ _).2.2.1
  rw [hs] at hh hw
  exact scrollIntoView_inView w hh hw

theorem cursorInView_needs_redraw (w : View) (b : Bool) :
    cursorInView { w with needs_redraw := b } ↔ cursorInView w :=
  Iff.rfl

/-- After any single Move or Resize command whose resulting viewport has
positive extents, the cursor is inside the viewport window. -/
theorem handle_inView (v : View) (c : MoveResizeCommand)
    (hh : 0 < (v.handleMoveResize c).size.height)
    (hw : 0 < (v.handleMoveResize c).size.width) :
    cursorInView (v.handleMoveResize c) := by
  cases c with
  | Move d => exact scrollIntoView_inView' _ hh hw
  | Resize s =>
    exact (cursorInView_needs_redraw _ _).mpr (scrollIntoView_inView' _ hh hw)

/-- C1 counterexample: resizing to a zero-extent viewport breaks the
claimed invariant — the window `[scroll_offset, scroll_offset + size)` is
empty, so the cursor's display position cannot lie in it. -/
theorem C1_counterexample_zero_viewport :
    ¬ cursorInView ((⟨⟨[], ⟨none⟩, false⟩, true, ⟨1, 1⟩, ⟨0, 0⟩, ⟨0, 0⟩⟩ : View).run
      [MoveResizeCommand.Resize ⟨0, 0⟩]) := by decide

/-- C1 amended: after any nonempty sequence of Move and Resize commands,
provided the viewport size in effect at the end is positive on both axes,
the cursor's display position (row = line_index,
col = width_until grapheme_index) lies within
`[scroll_offset, scroll_offset + size)` on both axes. -/
theorem C1_amended_cursor_in_viewport (v : View) (cmds : List MoveResizeCommand)
    (hne : cmds ≠ [])
    (hh : 0 < (v.run cmds).size.height) (hw : 0 < (v.run cmds).size.width) :
    cursorInView (v.run cmds) := by
  induction cmds generalizing v with
  | nil => exact absurd rfl hne
  | cons c cs ih =>
    have hstep : v.run (c :: cs) = (v.handleMoveResize c).run cs := rfl
    rw [hstep] at hh hw ⊢
    cases cs with
    | nil => exact handle_inView v c hh hw
    | cons c2 cs2 => exact ih (v.handleMoveResize c) (by simp) hh hw

/-- C1 amended witness: a concrete command sequence on a concrete view. -/
theorem C1_amended_cursor_in_viewport_witness :
    cursorInView ((⟨⟨[Line.fromStr ['a', 'b']], ⟨none⟩, false⟩, true, ⟨2, 2⟩, ⟨0, 0⟩,
      ⟨0, 0⟩⟩ : View).run
      [MoveResizeCommand.Move Direction.Right, MoveResizeCommand.Move Direction.Right]) :=
  C1_amended_cursor_in_viewport _ _ (by decide) (by decide) (by decide)

/-! ### Claim C8: insert then delete at the same index -/

theorem str_to_fragments_length (s : List Char) :
    (str_to_fragments s).length = (graphemes s).length := by
  simp [str_to_fragments]

theorem fromStr_count (s : List Char) :
    (Line.fromStr s).grapheme_count = (graphemes s).length :=
  str_to_fragments_length s

theorem getLastD_concat (l : List Char) (a : Char) :
    ∀ d, (l ++ [a]).getLastD d = a := by
  induction l with
  | nil => intro d; rfl
  | cons x xs ih =>
    intro d
    rw [List.cons_append, List.getLastD_cons]
    exact ih x

theorem eraseIdx_append_length {α : Type} :
    ∀ (A : List α) (x : α) (B : List α), (A ++ x :: B).eraseIdx A.length = A ++ B := by
  intro A
  induction A with
  | nil => intro x B; rfl
  | cons a A' ih =>
    intro x B
    show ((a :: A') ++ x :: B).eraseIdx (A'.length + 1) = (a :: A') ++ B
    rw [List.cons_append, List.eraseIdx_cons_succ, ih x B]
    rfl

/-- The text rebuilt by `insert_char` on a segmented line: the first `k`
clusters, the new character, then the remaining clusters. -/
theorem insert_char_text_clusters (s : List Char) (c : Char) (k : Nat)
    (hk : k ≤ (graphemes s).length) :
    insertLoop c k 0 (str_to_fragments s) ++
      (if (str_to_fragments s).length ≤ k then [c] else []) =
    ((graphemes s).take k).flatten ++ c :: ((graphemes s).drop k).flatten := by
  have hlen : (str_to_fragments s).length = (graphemes s).length := str_to_fragments_length s
  have h := insert_char_text c (str_to_fragments s) k (by omega)
  rw [h]
  congr 1
  · rw [List.map_take, grapheme_str_to_fragments s]
  · congr 1
    rw [List.map_drop, grapheme_str_to_fragments s]

theorem dropLast_append_getLast? {α : Type} :
    ∀ (l : List α) (a : α), l.getLast? = some a → l.dropLast ++ [a] = l := by
  intro l
  induction l with
  | nil => intro a h; simp at h
  | cons x xs ih =>
    intro a h
    cases hxs : xs with
    | nil =>
      subst hxs
      simp at h
      simp [h]
    | cons y ys =>
      subst hxs
      rw [List.getLast?_cons_cons] at h
      have hrec := ih a h
      rw [show (x :: y :: ys).dropLast = x :: (y :: ys).dropLast from rfl]
      rw [List.cons_append, hrec]

/-- Failure of a boundary right before a single character: the preceding
character is not Control and the new character is Extend. -/
theorem breakRel_single_false {g : List Char} {c : Char} (h : ¬ breakRel g [c]) :
    isControlChar (g.getLastD ' ') = false ∧ isExtendChar c = true := by
  unfold breakRel at h
  have h' := eq_false_of_ne_true h
  rw [show ([c] : List Char).headD ' ' = c from rfl] at h'
  unfold graphemeBreakBetween at h'
  rcases Bool.or_eq_false_iff.mp h' with ⟨h1, h2⟩
  exact ⟨h1, by simpa using h2⟩

/-- Failure of a boundary right after a single character: the new character
is not Control and the following cluster starts with an Extend character. -/
theorem breakRel_left_single_false {h : List Char} {c : Char} (hn : ¬ breakRel [c] h) :
    isControlChar c = false ∧ isExtendChar (h.headD ' ') = true := by
  unfold breakRel at hn
  have h' := eq_false_of_ne_true hn
  rw [show ([c] : List Char).getLastD ' ' = c from rfl] at h'
  unfold graphemeBreakBetween at h'
  rcases Bool.or_eq_false_iff.mp h' with ⟨h1, h2⟩
  exact ⟨h1, by simpa using h2⟩

/-- Inserting a character between two chains of clusters yields exactly one
extra cluster, namely `[c]` between them, whenever the overall cluster
count goes up — the count increase rules out every merge with a
neighbouring cluster. -/
theorem graphemes_insert_core (A B : List (List Char)) (c : Char)
    (hshapeA : ∀ g ∈ A, clusterShape g) (hshapeB : ∀ g ∈ B, clusterShape g)
    (hchA : List.Chain' breakRel A) (hchB : List.Chain' breakRel B)
    (hbound : ∀ x ∈ A.getLast?, ∀ y ∈ B.head?, breakRel x y)
    (hcount : (graphemes (A.flatten ++ c :: B.flatten)).length = A.length + B.length + 1) :
    graphemes (A.flatten ++ c :: B.flatten) = A ++ [c] :: B := by
  by_cases hb1 : ∀ x ∈ A.getLast?, breakRel x [c]
  · by_cases hb2 : ∀ y ∈ B.head?, breakRel [c] y
    · -- the character stands alone: the clean split
      have hH : chainOK (A ++ [c] :: B) := by
        constructor
        · intro g hg
          rcases List.mem_append.mp hg with h | h
          · exact hshapeA g h
          · rcases List.mem_cons.mp h with h | h
            · subst h; exact ⟨by simp, Or.inl rfl⟩
            · exact hshapeB g h
        · refine List.chain'_append.mpr ⟨hchA, ?_, ?_⟩
          · exact List.chain'_cons'.mpr ⟨fun y hy => hb2 y hy, hchB⟩
          · intro x hx y hy
            have hyc : [c] = y := by simpa using hy
            subst hyc
            exact hb1 x hx
      have hflatS : (A ++ [c] :: B).flatten = A.flatten ++ c :: B.flatten := by simp
      rw [← hflatS]
      exact graphemes_flatten_of_chainOK _ hH
    · -- the character would merge with the following cluster: count stays
      exfalso
      push_neg at hb2
      obtain ⟨h0, hh0mem, hnb⟩ := hb2
      rw [Option.mem_def] at hh0mem
      obtain ⟨B', rfl⟩ : ∃ B', B = h0 :: B' := by
        cases B with
        | nil => simp at hh0mem
        | cons b B' =>
          simp at hh0mem
          exact ⟨B', by rw [hh0mem]⟩
      obtain ⟨hcctl, hdext⟩ := breakRel_left_single_false hnb
      have hshapeh0 := hshapeB h0 (List.mem_cons_self _ _)
      obtain ⟨d, r, rfl⟩ : ∃ d r, h0 = d :: r := by
        cases h0 with
        | nil => exact absurd hshapeh0 (by simp [clusterShape])
        | cons d r => exact ⟨d, r, rfl⟩
      obtain ⟨hextr, _⟩ := hshapeh0
      have hdext' : isExtendChar d = true := by simpa using hdext
      obtain ⟨hheadB, hchB'⟩ := List.chain'_cons'.mp hchB
      have hH2 : chainOK (A ++ (c :: d :: r) :: B') := by
        constructor
        · intro g hg
          rcases List.mem_append.mp hg with h | h
          · exact hshapeA g h
          · rcases List.mem_cons.mp h with h | h
            · subst h
              refine ⟨?_, Or.inr hcctl⟩
              intro x hx
              rcases List.mem_cons.mp hx with h' | h'
              · subst h'; exact hdext'
              · exact hextr x h'
            · exact hshapeB g (List.mem_cons_of_mem _ h)
        · refine List.chain'_append.mpr ⟨hchA, ?_, ?_⟩
          · refine List.chain'_cons'.mpr ⟨?_, hchB'⟩
            intro y hy
            have hbr := hheadB y hy
            show graphemeBreakBetween ((c :: d :: r).getLastD ' ') (y.headD ' ') = true
            rw [List.getLastD_cons,
              getLastD_irrel (d :: r) c ' ' (List.cons_ne_nil d r)]
            exact hbr
          · intro x hx y hy
            have hyc : c :: d :: r = y := by simpa using hy
            subst hyc
            exact hb1 x hx
      have hgr : graphemes (A.flatten ++ c :: ((d :: r) :: B').flatten) =
          A ++ (c :: d :: r) :: B' := by
        have hflat : (A ++ (c :: d :: r) :: B').flatten =
            A.flatten ++ c :: ((d :: r) :: B').flatten := by simp
        rw [← hflat]
        exact graphemes_flatten_of_chainOK _ hH2
      rw [hgr] at hcount
      simp [List.length_append] at hcount
  · -- the character would merge with the preceding cluster: count stays
    exfalso
    push_neg at hb1
    obtain ⟨g, hgmem, hnb⟩ := hb1
    rw [Option.mem_def] at hgmem
    obtain ⟨A0, rfl⟩ : ∃ A0, A = A0 ++ [g] := by
      rcases List.eq_nil_or_concat A with h | ⟨A0, g', hA⟩
      · rw [h] at hgmem; simp at hgmem
      · rw [List.concat_eq_append] at hA
        subst hA
        rw [List.getLast?_concat] at hgmem
        injection hgmem with hg'
        exact ⟨A0, by rw [hg']⟩
    obtain ⟨hctl, hcext⟩ := breakRel_single_false hnb
    have hgA : g ∈ A0 ++ [g] := List.mem_append_right _ (List.mem_cons_self _ _)
    have hshapeg := hshapeA g hgA
    obtain ⟨d, r, rfl⟩ : ∃ d r, g = d :: r := by
      cases g with
      | nil => exact absurd hshapeg (by simp [clusterShape])
      | cons d r => exact ⟨d, r, rfl⟩
    obtain ⟨hextr, hheadcond⟩ := hshapeg
    obtain ⟨hchA0, _, hboundA0⟩ := List.chain'_append.mp hchA
    have hdctl : isControlChar d = false := by
      cases hr : r with
      | nil =>
        rw [hr] at hctl
        rw [show ((d :: [] : List Char)).getLastD ' ' = d from rfl] at hctl
        exact hctl
      | cons e r' =>
        exact hheadcond.resolve_left (by rw [hr]; simp)
    have hnoext : ∀ y ∈ B.head?, isExtendChar (y.headD ' ') = false := by
      intro y hy
      have hbr := hbound (d :: r) (by rw [List.getLast?_concat]; exact rfl) y hy
      unfold breakRel graphemeBreakBetween at hbr
      rw [Bool.or_eq_true] at hbr
      rcases hbr with h | h
      · rw [hctl] at h
        exact absurd h (by simp)
      · simpa using h
    have hH1 : chainOK (A0 ++ ((d :: r) ++ [c]) :: B) := by
      constructor
      · intro x hx
        rcases List.mem_append.mp hx with h | h
        · exact hshapeA x (List.mem_append_left _ h)
        · rcases List.mem_cons.mp h with h | h
          · subst h
            refine ⟨?_, Or.inr hdctl⟩
            intro z hz
            rcases List.mem_append.mp hz with h' | h'
            · exact hextr z h'
            · have hzc : z = c := by simpa using h'
              subst hzc
              exact hcext
          · exact hshapeB x h
      · refine List.chain'_append.mpr ⟨hchA0, ?_, ?_⟩
        · refine List.chain'_cons'.mpr ⟨?_, hchB⟩
          intro y hy
          show graphemeBreakBetween (((d :: r) ++ [c]).getLastD ' ') (y.headD ' ') = true
          rw [getLastD_concat (d :: r) c]
          unfold graphemeBreakBetween
          rw [not_control_of_extend hcext, hnoext y hy]
          rfl
        · intro x hx y hy
          have hyc : (d :: r) ++ [c] = y := by simpa using hy
          subst hyc
          have hbx := hboundA0 x hx (d :: r) (by simp)
          show graphemeBreakBetween (x.getLastD ' ') (((d :: r) ++ [c]).headD ' ') = true
          rw [show (((d :: r) ++ [c]) : List Char).headD ' ' = d from rfl]
          exact hbx
    have hgr : graphemes ((A0 ++ [d :: r]).flatten ++ c :: B.flatten) =
        A0 ++ ((d :: r) ++ [c]) :: B := by
      have hflat : (A0 ++ ((d :: r) ++ [c]) :: B).flatten =
          (A0 ++ [d :: r]).flatten ++ c :: B.flatten := by simp
      rw [← hflat]
      exact graphemes_flatten_of_chainOK _ hH1
    rw [hgr] at hcount
    simp [List.length_append] at hcount
    omega

/-- C8 counterexample: inserting a combining acute accent (U+0301) at index
1 of the line "a" merges into the single cluster "á", so the count does not
grow; deleting at index 1 is then a no-op and the original text "a" is not
restored. -/
theorem C8_counterexample_combining_mark :
    (((Line.fromStr ['a']).insert_char (Char.ofNat 0x301) 1).delete 1).toText ≠
      (Line.fromStr ['a']).toText := by decide

/-- C8 amended: for every Line built from text, every character c and every
index k ≤ grapheme_count, if inserting c at k increases the grapheme count
(the inserted character forms a grapheme of its own instead of merging with
a neighbour), then insert followed by delete at k reproduces the original
canonical text. -/
theorem C8_amended_insert_then_delete (s : List Char) (c : Char) (k : Nat)
    (hk : k ≤ (Line.fromStr s).grapheme_count)
    (hinc : ((Line.fromStr s).insert_char c k).grapheme_count =
      (Line.fromStr s).grapheme_count + 1) :
    (((Line.fromStr s).insert_char c k).delete k).toText = (Line.fromStr s).toText := by
  have hkG : k ≤ (graphemes s).length := by rw [fromStr_count] at hk; exact hk
  have hSdef : (Line.fromStr s).insert_char c k =
      Line.mk (str_to_fragments (((graphemes s).take k).flatten ++
        c :: ((graphemes s).drop k).flatten)) := by
    show Line.mk (str_to_fragments (insertLoop c k 0 (str_to_fragments s) ++
      (if (str_to_fragments s).length ≤ k then [c] else []))) = _
    rw [insert_char_text_clusters s c k hkG]
  have hcount : (graphemes (((graphemes s).take k).flatten ++
      c :: ((graphemes s).drop k).flatten)).length = (graphemes s).length + 1 := by
    have h1 : (Line.mk (str_to_fragments (((graphemes s).take k).flatten ++
        c :: ((graphemes s).drop k).flatten))).grapheme_count =
        (graphemes (((graphemes s).take k).flatten ++
          c :: ((graphemes s).drop k).flatten)).length := str_to_fragments_length _
    rw [hSdef, h1, fromStr_count] at hinc
    exact hinc
  obtain ⟨hshapeG, hchainG⟩ := chainOK_graphemes s
  have hAB : (graphemes s).take k ++ (graphemes s).drop k = graphemes s :=
    List.take_append_drop k (graphemes s)
  have hchainAB : List.Chain' breakRel ((graphemes s).take k ++ (graphemes s).drop k) := by
    rw [hAB]
    exact hchainG
  obtain ⟨hchA, hchB, hbound⟩ := List.chain'_append.mp hchainAB
  have hlenAB : ((graphemes s).take k).length + ((graphemes s).drop k).length =
      (graphemes s).length := by
    rw [← List.length_append, hAB]
  have hcore := graphemes_insert_core ((graphemes s).take k) ((graphemes s).drop k) c
    (fun g hg => hshapeG g (by rw [← hAB]; exact List.mem_append_left _ hg))
    (fun g hg => hshapeG g (by rw [← hAB]; exact List.mem_append_right _ hg))
    hchA hchB hbound (by omega)
  have hdel : (((Line.fromStr s).insert_char c k).delete k).toText =
      ((graphemes (((graphemes s).take k).flatten ++
        c :: ((graphemes s).drop k).flatten)).eraseIdx k).flatten := by
    rw [hSdef, delete_toText]
    rw [show (Line.mk (str_to_fragments (((graphemes s).take k).flatten ++
      c :: ((graphemes s).drop k).flatten))).fragments =
      str_to_fragments (((graphemes s).take k).flatten ++
        c :: ((graphemes s).drop k).flatten) from rfl]
    rw [grapheme_str_to_fragments]
  rw [hdel, hcore]
  have hlA : ((graphemes s).take k).length = k := by
    simp [List.length_take]
    omega
  have herase := eraseIdx_append_length ((graphemes s).take k) [c] ((graphemes s).drop k)
  rw [hlA] at herase
  rw [herase, hAB, graphemes_join, toText_fromStr]

/-- C8 amended witness: inserting a plain character in "ab" at index 1 and
deleting it again restores the text. -/
theorem C8_amended_insert_then_delete_witness :
    (((Line.fromStr ['a', 'b']).insert_char 'x' 1).delete 1).toText =
      (Line.fromStr ['a', 'b']).toText :=
  C8_amended_insert_then_delete ['a', 'b'] 'x' 1 (by decide) (by decide)

end SnowEdit
